import Mathlib

/-!
Shallow embedding of the publication-sync script of the systowe website
repository (the richer of the two near-duplicate scripts; functions
`parseBib`, `readBibValue`, `bibToText`, `cleanEntries`, `getYear`,
`normalizeAuthorList`, `buildVenue`, `formatPatentStatus`, `buildLinks`,
`looksLikeLink`, `normalizeLinkTarget`, the grouping part of
`generatePublicationHtml`, and `writeCleanBib`).

Modelling conventions:
- JS strings are Lean `String` / `List Char`; index-based scanning loops are
  rendered in remaining-input style (the unread tail of the text stands for
  the cursor position).
- JS objects used as string-keyed dictionaries are association lists in
  insertion order, with assignment overwriting in place (`setField`).
  Prototype-chain lookup and the integer-like-key iteration order of JS
  objects are not modelled.
- The regex class `\s`, `String.prototype.trim` and friends are modelled by
  `Char.isWhitespace` (ASCII whitespace); `toLowerCase` / `toUpperCase` by
  `Char.toLower` / `Char.toUpper` (ASCII; agrees with JS on ASCII data);
  `localeCompare` by code-point string comparison; `Number()` by exact
  decimal rationals (hex / exponent / `Infinity` forms, which cannot occur
  in year data, are mapped to `none` = NaN, and float rounding is not
  modelled).
- The filesystem probe `fs.existsSync(path.join(PDF_DIR, key + ".pdf"))` is
  the presence oracle `assetExists : String → Bool` keyed by the entry key.
- Loops whose progress is not structural carry an explicit iteration bound
  ("fuel"); every such loop consumes at least one character per iteration,
  so `input length + 1` iterations are always enough (proved below where a
  claim depends on it).
-/

/-- Model of the JS regex class `\s` and of the characters stripped by
`String.prototype.trim` (ASCII fragment). -/
def isWs (c : Char) : Bool := c.isWhitespace

/-- Characters skipped between fields by the parser: `/\s|,/`. -/
def isCommaWs (c : Char) : Bool := isWs c || c = ','

/-- Model of `String.prototype.trim` on char lists. -/
def trimChars (cs : List Char) : List Char :=
  ((cs.dropWhile isWs).reverse.dropWhile isWs).reverse

/-- Model of `String.prototype.trim`. -/
def jsTrim (s : String) : String := (trimChars s.toList).asString

/-- One step per fuel unit of the outer-brace-stripping loop of `bibToText`:
`while (out.startsWith("{") && out.endsWith("}")) out = out.slice(1, -1).trim()`.
Each step shortens the list by at least two, so `cs.length` fuel is always
enough. -/
def stripBraceGo : Nat → List Char → List Char
  | 0, cs => cs
  | n + 1, cs =>
    if cs.head? = some '{' && cs.getLast? = some '}' then
      stripBraceGo n (trimChars (cs.drop 1).dropLast)
    else cs

/-- Model of `.replace(/[{}]/g, "")`. -/
def removeBraces (cs : List Char) : List Char :=
  cs.filter (fun c => c ≠ '{' && c ≠ '}')

/-- Model of `.replace(/\p q/g, r)` for a two-character literal pattern and a
one-character replacement (left-to-right, non-overlapping), which is how
`bibToText` expands each of its three escape sequences. -/
def replacePair (p q r : Char) : List Char → List Char
  | [] => []
  | [c] => [c]
  | a :: b :: cs =>
    if a = p && b = q then r :: replacePair p q r cs
    else a :: replacePair p q r (b :: cs)

/-- Scanner for `.replace(/\s+/g, " ")`: the flag records whether the scanner
is inside a whitespace run that has already emitted its single space. -/
def collapseGo : Bool → List Char → List Char
  | _, [] => []
  | inRun, c :: cs =>
    if isWs c then
      if inRun then collapseGo true cs else ' ' :: collapseGo true cs
    else c :: collapseGo false cs

/-- Model of `.replace(/\s+/g, " ")`. -/
def collapseWs (cs : List Char) : List Char := collapseGo false cs

/-- Field-value normalization `bibToText` on char lists: trim, strip
redundant outer brace shells, delete remaining braces, expand the three
escape sequences, collapse whitespace, trim. -/
def bibToTextL (cs : List Char) : List Char :=
  let t := trimChars cs
  let s := stripBraceGo t.length t
  trimChars (collapseWs (replacePair '\\' '%' '%'
    (replacePair '\\' ',' ','
      (replacePair '\\' '&' '&' (removeBraces s)))))

/-- The source function `bibToText` (its `if (!value) return ""` guard is the
empty-list case of the pipeline). -/
def bibToText (value : String) : String := (bibToTextL value.toList).asString

/-- One parsed record `{ type, key, fields }`. -/
structure BibEntry where
  type : String
  key : String
  fields : List (String × String)
deriving DecidableEq, Repr

/-- Dictionary lookup in an association list (JS own-property read). -/
def alookup {β : Type} : List (String × β) → String → Option β
  | [], _ => none
  | (n, v) :: fs, m => if n = m then some v else alookup fs m

/-- Dictionary assignment `obj[n] = v`: overwrite in place, else append. -/
def setField : List (String × String) → String → String → List (String × String)
  | [], n, v => [(n, v)]
  | (n0, v0) :: fs, n, v =>
    if n0 = n then (n0, v) :: fs else (n0, v0) :: setField fs n v

/-- Field read `entry.fields[n]` with JS falsiness folded in: an absent field
reads as `undefined` and an empty string is equally falsy, so both are `""`. -/
def fieldVal (e : BibEntry) (n : String) : String := (alookup e.fields n).getD ""

/-- The denylist `DROP_FIELDS`. -/
def DROP_FIELDS : List String := ["file", "langid", "urldate", "shortjournal", "issue"]

/-- The per-entry field pass of `cleanEntries`: drop denylisted names, drop
fields that normalize to empty, keep the normalized value. -/
def cleanFields (fs : List (String × String)) : List (String × String) :=
  fs.foldl
    (fun acc p =>
      if p.1 ∈ DROP_FIELDS then acc
      else if bibToText p.2 = "" then acc
      else setField acc p.1 (bibToText p.2))
    []

/-- The per-entry map of `cleanEntries` (`{ ...entry, fields }`). -/
def cleanEntry (e : BibEntry) : BibEntry := { e with fields := cleanFields e.fields }

/-- The source function `getYear`: `fields.year`, else the first four
characters of `fields.date`, else `"Unknown"`. -/
def getYear (e : BibEntry) : String :=
  if fieldVal e "year" ≠ "" then fieldVal e "year"
  else if fieldVal e "date" ≠ "" then ((fieldVal e "date").toList.take 4).asString
  else "Unknown"

/-- Decimal digits to a natural number. -/
def digitsToNat (ds : List Char) : Nat :=
  ds.foldl (fun a c => 10 * a + (c.toNat - '0'.toNat)) 0

/-- Model of the JS `Number()` coercion on the decimal forms that matter
here: optional sign, integer digits, optional fraction; whitespace-trimmed;
empty input is `0`; anything else (including hex / exponent / `Infinity`
spellings) is NaN = `none`.  The value of `s i . f` is the exact rational
`s (if)/10^|f|`, built from the concatenated digit string. -/
def jsNumber (s : String) : Option ℚ :=
  let cs := trimChars s.toList
  if cs = [] then some 0
  else
    let sgncs : Bool × List Char :=
      match cs with
      | '-' :: t => (true, t)
      | '+' :: t => (false, t)
      | _ => (false, cs)
    let ip := sgncs.2.takeWhile Char.isDigit
    let rest1 := sgncs.2.dropWhile Char.isDigit
    match rest1 with
    | [] =>
      if ip = [] then none
      else some (mkRat (if sgncs.1 then -(digitsToNat ip : Int) else (digitsToNat ip : Int)) 1)
    | '.' :: fp =>
      let fd := fp.takeWhile Char.isDigit
      let rest2 := fp.dropWhile Char.isDigit
      if rest2 = [] && (ip ≠ [] || fd ≠ []) then
        some (mkRat
          (if sgncs.1 then -(digitsToNat (ip ++ fd) : Int) else (digitsToNat (ip ++ fd) : Int))
          (10 ^ fd.length))
      else none
    | _ => none

/-- The sort key `Number(getYear(e)) || 0` of the `cleanEntries` comparator
(`||` turns NaN, `0` and `-0` alike into `0`). -/
def yearNum (e : BibEntry) : ℚ := (jsNumber (getYear e)).getD 0

/-- The tie-break key `entry.fields.title || ""`. -/
def titleOf (e : BibEntry) : String := fieldVal e "title"

/-- Model of `a.localeCompare(b) ≤ 0` and of the default string comparator:
code-point lexicographic order, realized as the lexicographic order on char
lists (which, unlike the iterator-based order on `String`, evaluates). -/
def strLE (a b : String) : Prop := a.toList ≤ b.toList

/-- Strict code-point lexicographic order on strings. -/
def strLT (a b : String) : Prop := a.toList < b.toList

instance : DecidableRel strLE := fun a b => by
  unfold strLE; infer_instance

instance : DecidableRel strLT := fun a b => by
  unfold strLT; infer_instance

/-- The `cleanEntries` sort comparator as a total preorder: `a` may sit
before `b` exactly when the comparator value `(Number(getYear b) || 0) -
(Number(getYear a) || 0)`, or on a year tie `titleA.localeCompare(titleB)`,
is `≤ 0`. `localeCompare` is modelled as code-point comparison. -/
def entryLE (a b : BibEntry) : Prop :=
  yearNum b < yearNum a ∨ (yearNum a = yearNum b ∧ strLE (titleOf a) (titleOf b))

instance : DecidableRel entryLE := fun a b => by
  unfold entryLE; infer_instance

instance : IsTotal BibEntry entryLE :=
  ⟨fun a b => by
    unfold entryLE
    unfold strLE
    rcases lt_trichotomy (yearNum a) (yearNum b) with h | h | h
    · exact Or.inr (Or.inl h)
    · rcases le_total (titleOf a).toList (titleOf b).toList with ht | ht
      · exact Or.inl (Or.inr ⟨h, ht⟩)
      · exact Or.inr (Or.inr ⟨h.symm, ht⟩)
    · exact Or.inl (Or.inl h)⟩

instance : IsTrans BibEntry entryLE :=
  ⟨fun a b c hab hbc => by
    unfold entryLE strLE at *
    rcases hab with h1 | ⟨he1, ht1⟩
    · rcases hbc with h2 | ⟨he2, _⟩
      · exact Or.inl (h2.trans h1)
      · exact Or.inl (by rw [← he2]; exact h1)
    · rcases hbc with h2 | ⟨he2, ht2⟩
      · exact Or.inl (by rw [he1]; exact h2)
      · exact Or.inr ⟨he1.trans he2, ht1.trans ht2⟩⟩

/-- The source function `cleanEntries`: normalize every entry, then sort with
the year-descending / title-ascending comparator.  `Array.prototype.sort` is
stable (ES2019), and a stable sort that places `a` before `b` iff the
comparator is `≤ 0` is insertion sort with `entryLE`. -/
def cleanEntries (es : List BibEntry) : List BibEntry :=
  List.insertionSort entryLE (es.map cleanEntry)

/-- Splitter for `person.split(",")` and `normalized.split("_")`: all parts,
empties included. -/
def splitOnChar (sep : Char) : List Char → List (List Char)
  | [] => [[]]
  | c :: cs =>
    if c = sep then [] :: splitOnChar sep cs
    else
      match splitOnChar sep cs with
      | [] => [[c]]
      | p :: ps => (c :: p) :: ps

/-- Splitter for `person.split(/\s+/)`: one separator per whitespace run. -/
def splitWsGo : Nat → List Char → List Char → List (List Char)
  | 0, cur, cs => [cur ++ cs]
  | _ + 1, cur, [] => [cur]
  | fuel + 1, cur, c :: cs =>
    if isWs c then cur :: splitWsGo fuel [] (cs.dropWhile isWs)
    else splitWsGo fuel (cur ++ [c]) cs

/-- Helper of the `/\s+and\s+/i` splitter: after a whitespace run, does the
text continue with `and` (case-insensitive) followed by at least one
whitespace character?  If so return the text after that (greedy) run. -/
def isAndAt (cs : List Char) : Option (List Char) :=
  match cs with
  | a :: n :: d :: rest =>
    if a.toLower = 'a' && n.toLower = 'n' && d.toLower = 'd' then
      match rest with
      | w :: _ => if isWs w then some (rest.dropWhile isWs) else none
      | [] => none
    else none
  | _ => none

/-- Scanner for `authorField.split(/\s+and\s+/i)`.  A match must start at a
whitespace character; its leading `\s+` is forced to the whole run (the
following `and` cannot begin with whitespace), so on failure the scan may
simply move one character on. -/
def splitAndGo : Nat → List Char → List Char → List (List Char)
  | 0, cur, cs => [cur ++ cs]
  | _ + 1, cur, [] => [cur]
  | fuel + 1, cur, c :: cs =>
    if isWs c then
      match isAndAt (cs.dropWhile isWs) with
      | some rest => cur :: splitAndGo fuel [] rest
      | none => splitAndGo fuel (cur ++ [c]) cs
    else splitAndGo fuel (cur ++ [c]) cs

/-- Model of `authorField.split(/\s+and\s+/i)`. -/
def splitAnd (s : String) : List String :=
  (splitAndGo (s.toList.length + 1) [] s.toList).map List.asString

/-- Model of `.replace(/c/g, rep)` for a one-character pattern, used by
`escapeHtml`. -/
def replaceChar (t : Char) (rep : List Char) : List Char → List Char
  | [] => []
  | c :: cs =>
    if c = t then rep ++ replaceChar t rep cs else c :: replaceChar t rep cs

/-- The source function `escapeHtml`: `&`, `<`, `>`, `"` in that order. -/
def escapeHtml (s : String) : String :=
  (replaceChar '"' "&quot;".toList
    (replaceChar '>' "&gt;".toList
      (replaceChar '<' "&lt;".toList
        (replaceChar '&' "&amp;".toList s.toList)))).asString

/-- Substring test (`RegExp.prototype.test` with a literal pattern). -/
def containsSub (pat : List Char) : List Char → Bool
  | [] => pat.isPrefixOf ([] : List Char)
  | c :: cs => pat.isPrefixOf (c :: cs) || containsSub pat cs

/-- The character class `[\p{L}\p{N}.-]` kept by the surname cleanup
(ASCII fragment of the Unicode letter/number properties). -/
def keepNameChar (c : Char) : Bool := c.isAlpha || c.isDigit || c = '.' || c = '-'

/-- The distinguished-author test of `normalizeAuthorList`:
`/^stowe$/i` on the cleaned surname, and `/symon/i` on the given name or
`/^s(\.|$)/i` on its trim. -/
def isSymonStowe (first last : String) : Bool :=
  ((last.toList.filter keepNameChar).map Char.toLower = "stowe".toList)
    && (containsSub "symon".toList (first.toList.map Char.toLower)
      || (let t := (trimChars first.toList).map Char.toLower
          t = ['s'] || "s.".toList.isPrefixOf t))

/-- The per-person body of `normalizeAuthorList`: split `Last, First` on the
comma, otherwise split multi-token names at the last whitespace gap; render
`"First Last"` (falling back to the raw person string), escape, and wrap the
distinguished person in a strong tag. -/
def formatPerson (person : String) : String :=
  let pl := person.toList
  let fl : String × String :=
    if pl.contains ',' then
      let parts := (splitOnChar ',' pl).map (fun p => (trimChars p).asString)
      ((parts.drop 1).headD "", parts.headD "")
    else
      let tokens := (splitWsGo (pl.length + 1) [] pl).filter (fun t => t ≠ [])
      if tokens.length > 1 then
        (String.intercalate " " (tokens.dropLast.map List.asString),
          (tokens.getLastD []).asString)
      else (person, "")
  let dn := jsTrim (fl.1 ++ " " ++ fl.2)
  let displayName := if dn = "" then person else dn
  let safeName := escapeHtml displayName
  if isSymonStowe fl.1 fl.2 then "<strong>" ++ safeName ++ "</strong>" else safeName

/-- The source function `normalizeAuthorList`. -/
def normalizeAuthorList (authorField : String) : String :=
  if authorField = "" then ""
  else
    let people := ((splitAnd authorField).map jsTrim).filter (fun p => p ≠ "")
    String.intercalate ", " (people.map formatPerson)

/-- JS `a || b` on strings. -/
def orFld (a b : String) : String := if a ≠ "" then a else b

/-- The `pieces.filter(Boolean).join(", ")` idiom of `buildVenue`. -/
def joinPieces (ps : List String) : String :=
  String.intercalate ", " (ps.filter (fun p => p ≠ ""))

/-- Scanner for `.replace(/[\s-]+/g, "_")` (one underscore per run). -/
def statusRunGo : Bool → List Char → List Char
  | _, [] => []
  | inRun, c :: cs =>
    if isWs c || c = '-' then
      if inRun then statusRunGo true cs else '_' :: statusRunGo true cs
    else c :: statusRunGo false cs

/-- The fixed status-code table of `formatPatentStatus`. -/
def STATUS_LABELS : List (String × String) :=
  [("published_application", "Published application"), ("granted", "Granted"),
    ("pending", "Pending"), ("abandoned", "Abandoned")]

/-- Title-casing of one token: `token[0].toUpperCase() + token.slice(1)`. -/
def capFirst (t : List Char) : String :=
  match t with
  | [] => ""
  | c :: cs => (Char.toUpper c :: cs).asString

/-- The source function `formatPatentStatus`. -/
def formatPatentStatus (status : String) : String :=
  if status = "" then ""
  else
    match alookup STATUS_LABELS ((statusRunGo false (status.toList.map Char.toLower)).asString) with
    | some label => label
    | none =>
      String.intercalate " "
        (((splitOnChar '_'
            ((statusRunGo false (status.toList.map Char.toLower)).asString).toList).filter
          (fun t => t ≠ [])).map capFirst)

/-- The source function `buildVenue` (every branch guards each piece on field
presence and joins the non-empty pieces with `", "`). -/
def buildVenue (e : BibEntry) : String :=
  if e.type = "article" then
    let vol :=
      (if fieldVal e "volume" ≠ "" then fieldVal e "volume" else "")
        ++ (if fieldVal e "number" ≠ "" then "(" ++ fieldVal e "number" ++ ")" else "")
    joinPieces
      ([orFld (fieldVal e "journaltitle") (fieldVal e "journal")]
        ++ (if vol ≠ "" then [vol] else [])
        ++ (if fieldVal e "pages" ≠ "" then [fieldVal e "pages"] else []))
  else if e.type = "inproceedings" then
    joinPieces
      ([orFld (fieldVal e "booktitle") (fieldVal e "eventtitle")]
        ++ (if fieldVal e "location" ≠ "" then [fieldVal e "location"] else [])
        ++ (if fieldVal e "date" ≠ "" then [fieldVal e "date"]
            else if fieldVal e "year" ≠ "" then [fieldVal e "year"] else [])
        ++ (if fieldVal e "pages" ≠ "" then ["pp. " ++ fieldVal e "pages"] else []))
  else if e.type = "patent" then
    joinPieces
      ((if formatPatentStatus (fieldVal e "status") ≠ "" then
          ["Status: " ++ formatPatentStatus (fieldVal e "status")]
        else [])
        ++ (if fieldVal e "number" ≠ "" then [fieldVal e "number"] else [])
        ++ (if fieldVal e "location" ≠ "" then [fieldVal e "location"] else [])
        ++ (if fieldVal e "date" ≠ "" then [fieldVal e "date"] else []))
  else if e.type = "phdthesis" || e.type = "mastersthesis" then
    joinPieces
      ((if fieldVal e "school" ≠ "" then [fieldVal e "school"] else [])
        ++ (if fieldVal e "advisor" ≠ "" then ["Supervisor: " ++ fieldVal e "advisor"]
            else if fieldVal e "supervisor" ≠ "" then
              ["Supervisor: " ++ fieldVal e "supervisor"]
            else [])
        ++ (if fieldVal e "year" ≠ "" then [fieldVal e "year"]
            else if fieldVal e "date" ≠ "" then [fieldVal e "date"] else []))
  else if e.type = "unpublished" then
    orFld (fieldVal e "note") (orFld (fieldVal e "year") "")
  else
    joinPieces
      [orFld (fieldVal e "booktitle")
        (orFld (fieldVal e "journaltitle") (orFld (fieldVal e "note") "")),
        orFld (fieldVal e "year") ""]

/-- One rendered link `{ label, href }`. -/
structure Link where
  label : String
  href : String
deriving DecidableEq, Repr

/-- Hrefs of a link list; the `seen` set of `buildLinks` always equals this
set, since `addLink` is the only writer and touches both together. -/
def hrefs (links : List Link) : List String := links.map Link.href

/-- The `addLink` closure of `buildLinks`: skip empty and already-seen hrefs,
else push. -/
def addLink (links : List Link) (label href : String) : List Link :=
  if href = "" || href ∈ hrefs links then links else links ++ [⟨label, href⟩]

/-- The URL/path alternatives of `looksLikeLink` that `normalizeLinkTarget`
also accepts verbatim: `/^https?:\/\//i`, `/^mailto:/i`, `/^\.{0,2}\//`,
`/^\//`. -/
def isUrlOrPath (v : List Char) : Bool :=
  "http://".toList.isPrefixOf (v.map Char.toLower)
    || "https://".toList.isPrefixOf (v.map Char.toLower)
    || "mailto:".toList.isPrefixOf (v.map Char.toLower)
    || "/".toList.isPrefixOf v
    || "./".toList.isPrefixOf v
    || "../".toList.isPrefixOf v

/-- Scanner for `/\.pdf($|[?#])/` on an already-lowercased list. -/
def hasPdfExt : List Char → Bool
  | [] => false
  | c :: cs =>
    (".pdf".toList.isPrefixOf (c :: cs)
        && (match (c :: cs).drop 4 with
          | [] => true
          | d :: _ => d = '?' || d = '#'))
      || hasPdfExt cs

/-- The source function `looksLikeLink`. -/
def looksLikeLink (value : String) : Bool :=
  let v := trimChars value.toList
  isUrlOrPath v || hasPdfExt (v.map Char.toLower)

/-- The source function `normalizeLinkTarget`: URLs and paths pass through,
anything else is rewritten under the `pdfs/` asset directory. -/
def normalizeLinkTarget (value : String) : String :=
  let v := trimChars value.toList
  if isUrlOrPath v then v.asString else "pdfs/" ++ v.asString

/-- The `addAssetLink` closure of `buildLinks`: walk the prioritized field
names; skip absent values and values that do not look like links; on the
first accepted value add one link and stop. -/
def addAssetLink (e : BibEntry) (label : String) : List String → List Link → List Link
  | [], links => links
  | n :: ns, links =>
    if fieldVal e n = "" then addAssetLink e label ns links
    else if looksLikeLink (fieldVal e n) then
      addLink links label (normalizeLinkTarget (fieldVal e n))
    else addAssetLink e label ns links

/-- The source function `buildLinks`, with the filesystem probe abstracted as
the presence oracle on the entry key. -/
def buildLinks (assetExists : String → Bool) (e : BibEntry) : List Link :=
  let pdfHref := "pdfs/" ++ e.key ++ ".pdf"
  if e.type = "article" then
    let links :=
      addAssetLink e "Final Draft"
        ["final_draft", "final_draft_url", "paper_pdf", "paper_url", "pdf"] []
    if links.length = 0 && assetExists e.key then addLink links "Final Draft" pdfHref
    else links
  else if e.type = "phdthesis" || e.type = "mastersthesis" then
    let l1 :=
      addAssetLink e "Final Draft"
        ["final_draft", "final_draft_url", "paper_pdf", "paper_url", "pdf"] []
    let l2 :=
      addAssetLink e "Presentation"
        ["presentation_url", "presentation_link", "presentation_pdf", "slides_url",
          "slides_link", "slides_pdf"] l1
    if l2.length = 0 && assetExists e.key then addLink l2 "Final Draft" pdfHref
    else l2
  else if e.type = "inproceedings" then
    let l1 :=
      addAssetLink e "Abstract" ["abstract_url", "abstract_link", "abstract_pdf", "abstract"] []
    let l2 :=
      addAssetLink e "Presentation"
        ["presentation_url", "presentation_link", "presentation_pdf", "talk_url", "talk_pdf"] l1
    let l3 := addAssetLink e "Poster" ["poster_url", "poster_link", "poster_pdf", "poster"] l2
    if l3.length = 0 && assetExists e.key then addLink l3 "Abstract" pdfHref
    else l3
  else if e.type = "unpublished" then
    let links := addAssetLink e "Slides" ["slides_url", "slides_link", "slides_pdf", "slides"] []
    if links.length = 0 && assetExists e.key then addLink links "Slides" pdfHref
    else links
  else
    let url := fieldVal e "url"
    let doi := fieldVal e "doi"
    let doiHref := if doi ≠ "" then "https://doi.org/" ++ doi else ""
    let isDoiUrl :=
      if url ≠ "" then containsSub "doi.org/".toList (url.toList.map Char.toLower) else false
    let l1 := if url ≠ "" then addLink [] (if isDoiUrl then "DOI" else "Link") url else []
    let l2 :=
      if url ≠ "" && doiHref ≠ "" && !isDoiUrl then addLink l1 "DOI" doiHref else l1
    if assetExists e.key then addLink l2 "PDF" pdfHref else l2

/-- The fixed `TYPE_TO_CATEGORY` table. -/
def TYPE_TO_CATEGORY : List (String × String) :=
  [("article", "Publications"), ("inproceedings", "Proceedings"),
    ("patent", "Patent Applications"), ("phdthesis", "Publications"),
    ("mastersthesis", "Publications"), ("unpublished", "Talks")]

/-- The fixed `CATEGORY_ORDER` list. -/
def CATEGORY_ORDER : List String :=
  ["Publications", "Proceedings", "Patent Applications", "Talks", "Other"]

/-- Category assignment `TYPE_TO_CATEGORY[entry.type] || "Other"`. -/
def categoryOf (t : String) : String := (alookup TYPE_TO_CATEGORY t).getD "Other"

/-- Push into the per-year category map (`Map` insertion order). -/
def pushCat : List (String × List BibEntry) → String → BibEntry → List (String × List BibEntry)
  | [], c, e => [(c, [e])]
  | (c0, es) :: rest, c, e =>
    if c0 = c then (c0, es ++ [e]) :: rest else (c0, es) :: pushCat rest c e

/-- Push into the year map of `generatePublicationHtml`. -/
def pushYear :
    List (String × List (String × List BibEntry)) → String → String → BibEntry →
      List (String × List (String × List BibEntry))
  | [], y, c, e => [(y, pushCat [] c e)]
  | (y0, cats) :: rest, y, c, e =>
    if y0 = y then (y0, pushCat cats c e) :: rest else (y0, cats) :: pushYear rest y c e

/-- The `byYear` structure built by the first loop of
`generatePublicationHtml`. -/
def bucketsOf (es : List BibEntry) : List (String × List (String × List BibEntry)) :=
  es.foldl (fun b e => pushYear b (getYear e) (categoryOf e.type) e) []

/-- The year ordering `(a, b) => Number(b) - Number(a)` as a total-preorder
bound for the stable sort; a NaN comparator value is treated as `0` (a tie)
by the JS sort. -/
def yearKeyLEb (a b : String) : Bool :=
  match jsNumber a, jsNumber b with
  | some x, some y => decide (y ≤ x)
  | _, _ => true

/-- Propositional form of `yearKeyLEb`. -/
def yearKeyLE (a b : String) : Prop := yearKeyLEb a b = true

instance : DecidableRel yearKeyLE := fun a b => by
  unfold yearKeyLE; infer_instance

/-- The within-category re-sort comparator of `generatePublicationHtml`
(line `entriesForCategory.sort(...)`: title ascending). -/
def titleLE (a b : BibEntry) : Prop := strLE (titleOf a) (titleOf b)

instance : DecidableRel titleLE := fun a b => by
  unfold titleLE; infer_instance

/-- The grouped rendering payload of `generatePublicationHtml` (lines
building `byYear`, sorting `years`, and walking `CATEGORY_ORDER`): one
element per emitted year heading, one inner element per emitted category
heading, in emission order.  The HTML assembly below these lines adds no
entries and drops none. -/
def pubGroups (es : List BibEntry) : List (String × List (String × List BibEntry)) :=
  let buckets := bucketsOf es
  let years := List.insertionSort yearKeyLE (buckets.map Prod.fst)
  years.map fun y =>
    let cats := (alookup buckets y).getD []
    (y, CATEGORY_ORDER.filterMap fun c =>
      match alookup cats c with
      | some bucket =>
        if bucket.length = 0 then none else some (c, List.insertionSort titleLE bucket)
      | none => none)

/-- Flattening of a category map: all entries of all buckets, in order. -/
def catsFlat (cats : List (String × List BibEntry)) : List BibEntry :=
  (cats.map Prod.snd).flatten

/-- All entries of a grouped payload (or of a `byYear` structure), in order. -/
def groupsFlat (gs : List (String × List (String × List BibEntry))) : List BibEntry :=
  (gs.map (fun yc => catsFlat yc.2)).flatten

/-- Well-formedness invariant of the `byYear` grouping structure: year keys
are distinct, every year has a non-empty category map with distinct keys
drawn from `CATEGORY_ORDER`, and every category bucket is non-empty. -/
def goodBuckets (b : List (String × List (String × List BibEntry))) : Prop :=
  (b.map Prod.fst).Nodup ∧
    ∀ yc ∈ b, yc.2 ≠ [] ∧ (yc.2.map Prod.fst).Nodup ∧
      ∀ cb ∈ yc.2, cb.1 ∈ CATEGORY_ORDER ∧ cb.2 ≠ []

/-- Characters of a status string that survive the `[\s-]+` → `_` run
replacement as something other than an underscore. -/
def isWordChar (c : Char) : Bool := !(isWs c || c = '-' || c = '_')

/-- Status strings whose lowercasing contains at least one character that is
neither whitespace nor a hyphen nor an underscore; exactly these yield a
non-empty label from `formatPatentStatus`. -/
def hasWordChar (s : String) : Bool :=
  (s.toList.map Char.toLower).any isWordChar

/-- The brace branch of `readBibValue`: depth counting, value keeps the
braces, unterminated input is read to the end. -/
def braceScanGo : Int → List Char → List Char × List Char
  | _, [] => ([], [])
  | depth, c :: cs =>
    if c = '{' then
      let r := braceScanGo (depth + 1) cs
      (c :: r.1, r.2)
    else if c = '}' then
      if depth - 1 = 0 then ([c], cs)
      else
        let r := braceScanGo (depth - 1) cs
        (c :: r.1, r.2)
    else
      let r := braceScanGo depth cs
      (c :: r.1, r.2)

/-- The quote branch of `readBibValue`: read to an unescaped quote (the
previous character is threaded through; it starts as the opening quote),
value excludes the quotes, unterminated input is read to the end. -/
def quoteScanGo : Char → List Char → List Char × List Char
  | _, [] => ([], [])
  | prev, c :: cs =>
    if c = '"' && prev ≠ '\\' then ([], cs)
    else
      let r := quoteScanGo c cs
      (c :: r.1, r.2)

/-- The source function `readBibValue`; the argument stands for the text from
the start cursor on, the returned list for the text from the next cursor. -/
def readBibValue (cs : List Char) : String × List Char :=
  match cs with
  | '{' :: _ =>
    let r := braceScanGo 0 cs
    (r.1.asString, r.2)
  | '"' :: rest =>
    let r := quoteScanGo '"' rest
    (r.1.asString, r.2)
  | _ =>
    ((cs.takeWhile (fun c => c ≠ ',' && c ≠ '}')).asString,
      cs.dropWhile (fun c => c ≠ ',' && c ≠ '}'))

/-- The field-name class `/[A-Za-z0-9_-]/`. -/
def isNameChar (c : Char) : Bool := c.isAlphanum || c = '_' || c = '-'

/-- The field loop of `parseBib`.  Every iteration that recurses first
consumes the `=` sign, so the remaining input shrinks strictly and
`length + 1` fuel is exact. -/
def parseFieldsGo : Nat → List (String × String) → List Char → List (String × String) × List Char
  | 0, fs, cs => (fs, cs)
  | fuel + 1, fs, cs =>
    let cs1 := cs.dropWhile isCommaWs
    match cs1 with
    | [] => (fs, [])
    | '}' :: rest => (fs, rest)
    | _ =>
      let nm := ((cs1.takeWhile isNameChar).map Char.toLower).asString
      let cs2 := (cs1.dropWhile isNameChar).dropWhile isWs
      match cs2 with
      | '=' :: cs3 =>
        let rv := readBibValue (cs3.dropWhile isWs)
        parseFieldsGo fuel (setField fs nm (jsTrim rv.1)) rv.2
      | _ => (fs, cs2)

/-- One record attempt of `parseBib`, starting just after a located `@`:
read the type letters, expect `{`, read the key up to the comma, then run the
field loop.  The `continue` paths return `none` together with the cursor they
abandon at. -/
def parseRecord (cs : List Char) : Option BibEntry × List Char :=
  let cs1 := cs.dropWhile isWs
  let ty := ((cs1.takeWhile Char.isAlpha).map Char.toLower).asString
  let cs2 := (cs1.dropWhile Char.isAlpha).dropWhile isWs
  match cs2 with
  | '{' :: cs3 =>
    let cs4 := cs3.dropWhile isWs
    let key := jsTrim (cs4.takeWhile (fun c => c ≠ ',')).asString
    let cs5 := cs4.dropWhile (fun c => c ≠ ',')
    match cs5 with
    | ',' :: cs6 =>
      let r := parseFieldsGo (cs6.length + 1) [] cs6
      (some ⟨ty, key, r.1⟩, r.2)
    | _ => (none, cs5)
  | _ => (none, cs2)

/-- The outer loop of `parseBib`: find the next `@`, consume it, try one
record, rescan from wherever the attempt left the cursor.  Each iteration
consumes at least the located `@`, so `length + 1` fuel is exact. -/
def parseLoopGo : Nat → List Char → List BibEntry
  | 0, _ => []
  | fuel + 1, cs =>
    match cs.dropWhile (fun c => c ≠ '@') with
    | [] => []
    | _ :: rest =>
      let r := parseRecord rest
      (match r.1 with
        | some e => [e]
        | none => []) ++ parseLoopGo fuel r.2

/-- The source function `parseBib`. -/
def parseBib (tex : String) : List BibEntry := parseLoopGo (tex.toList.length + 1) tex.toList

/-- The field ordering of `writeCleanBib` (`Object.keys(entry.fields).sort()`,
code-unit lexicographic). -/
def sortFieldsByName (fs : List (String × String)) : List (String × String) :=
  List.insertionSort (fun p q : String × String => strLE p.1 q.1) fs

/-- One serialized field line of `writeCleanBib`: newline, two spaces, name,
` = `, the value in braces, trailing comma. -/
def fieldLineL (p : String × String) : List Char :=
  '\n' :: ' ' :: ' ' :: (p.1.toList ++ ' ' :: '=' :: ' ' :: '{' :: (p.2.toList ++ ['}', ',']))

/-- One serialized entry of `writeCleanBib`:
`@type{key,` then the sorted field lines, then a closing line. -/
def entryChunkL (e : BibEntry) : List Char :=
  '@' :: (e.type.toList ++ '{' :: (e.key.toList ++ ',' ::
    (((sortFieldsByName e.fields).map fieldLineL).flatten ++ ['\n', '}'])))

/-- The chunks joined with the `"\n\n"` separator of `writeCleanBib`. -/
def sepChunksL : List BibEntry → List Char
  | [] => []
  | [e] => entryChunkL e
  | e :: rest => entryChunkL e ++ '\n' :: '\n' :: sepChunksL rest

/-- The source function `writeCleanBib` (the text written to the `.bib`
file; the file write itself is the storage boundary). -/
def writeCleanBib (es : List BibEntry) : String := (sepChunksL es ++ ['\n']).asString

/-- Characters allowed in a serializable type: the parser's `/[A-Za-z]/`
class restricted to the lowercase letters the parser itself produces. -/
def isLowerAZ (c : Char) : Bool := 'a' ≤ c && c ≤ 'z'

/-- Brace-free values, as required for a value to survive the brace-depth
scan and the brace stripping unchanged. -/
def noBrace (cs : List Char) : Bool := cs.all (fun c => c ≠ '{' && c ≠ '}')

/-- Values free of the three escape-sequence patterns expanded by
`bibToText`. -/
def escFree : List Char → Bool
  | [] => true
  | [_] => true
  | a :: b :: cs =>
    !(a = '\\' && (b = '&' || b = ',' || b = '%')) && escFree (b :: cs)

/-- A field value in normal form: non-empty, brace-free, escape-free,
whitespace-collapsed and trimmed — exactly the values `bibToText` maps to
themselves. -/
def wfValue (v : String) : Prop :=
  v ≠ "" ∧ noBrace v.toList = true ∧ escFree v.toList = true ∧
    collapseWs v.toList = v.toList ∧ trimChars v.toList = v.toList

/-- A field name as the parser produces it and the denylist admits it. -/
def wfName (n : String) : Prop :=
  n ≠ "" ∧ (∀ c ∈ n.toList, isNameChar c = true ∧ Char.toLower c = c) ∧ n ∉ DROP_FIELDS

/-- A normalized entry in serializable form: lowercase-letter type, trimmed
comma-free key, and a strictly name-sorted field list (the canonical
association-list representation of the field mapping) of well-formed names
and normal-form values. -/
def wfEntry (e : BibEntry) : Prop :=
  (∀ c ∈ e.type.toList, isLowerAZ c = true) ∧
    trimChars e.key.toList = e.key.toList ∧ ',' ∉ e.key.toList ∧
    e.fields.Pairwise (fun p q => strLT p.1 q.1) ∧
    ∀ p ∈ e.fields, wfName p.1 ∧ wfValue p.2

instance : DecidablePred wfEntry := fun e => by
  unfold wfEntry wfName wfValue strLT; infer_instance

/-- Input on which the brace branch of `readBibValue` runs out of text: the
text starts with `{` and the brace depth (opens minus closes) of no non-empty
prefix returns to zero. -/
def unterminatedBrace (cs : List Char) : Prop :=
  cs.head? = some '{' ∧
    ∀ k < cs.length + 1, 1 ≤ k →
      ((cs.take k).count '{' : Int) - ((cs.take k).count '}' : Int) ≠ 0

instance : DecidablePred unterminatedBrace := fun cs => by
  unfold unterminatedBrace; infer_instance

/-- Text (after an opening quote) containing no closing quote: no `"` whose
predecessor (the opening quote for position zero) is not a backslash. -/
def noQuoteEnd (tl : List Char) : Prop :=
  ∀ j < tl.length, ¬(tl.getD j ' ' = '"' ∧ (j = 0 ∨ tl.getD (j - 1) ' ' ≠ '\\'))

instance : DecidablePred noQuoteEnd := fun tl => by
  unfold noQuoteEnd; infer_instance

/-- The character preceding position `j` in the quote scan: the threaded
`prev` at position zero, the previous character of the text after that. -/
def prevAt (prev : Char) (tl : List Char) (j : Nat) : Char :=
  if j = 0 then prev else tl.getD (j - 1) ' '

/-! Generic helper lemmas. -/

theorem asString_toList (s : String) : s.toList.asString = s := rfl

theorem toList_asString (l : List Char) : l.asString.toList = l := rfl

theorem asString_ne_empty {cs : List Char} (h : cs ≠ []) : cs.asString ≠ "" := by
  intro he
  apply h
  have h2 := congrArg String.toList he
  rwa [toList_asString] at h2

theorem append_ne_empty_left {a : String} (b : String) (h : a ≠ "") : a ++ b ≠ "" := by
  intro he
  apply h
  have h2 := congrArg String.data he
  rw [String.data_append] at h2
  exact String.ext (by simp [(List.append_eq_nil.mp h2).1])

theorem strIntercalate_go_length (sep : String) (as : List String) :
    ∀ acc : String, acc.length ≤ (String.intercalate.go acc sep as).length := by
  induction as with
  | nil => intro acc; exact Nat.le_refl _
  | cons a as ih =>
    intro acc
    have h1 : acc.length ≤ (acc ++ sep ++ a).length := by
      rw [String.length_append, String.length_append]
      omega
    exact h1.trans (ih (acc ++ sep ++ a))

theorem intercalate_cons_ne_empty {x : String} (sep : String) (l : List String) (hx : x ≠ "") :
    String.intercalate sep (x :: l) ≠ "" := by
  intro he
  have h1 : x.length ≤ (String.intercalate sep (x :: l)).length := by
    rw [show String.intercalate sep (x :: l) = String.intercalate.go x sep l from rfl]
    exact strIntercalate_go_length sep l x
  rw [he] at h1
  have h0 : 0 < x.length := by
    cases hx2 : x.data with
    | nil => exact absurd (String.ext (by simp [hx2])) hx
    | cons c cs => simp [String.length, hx2]
  have h2 : ("" : String).length = 0 := rfl
  omega

theorem alookup_mem {β : Type} : ∀ {l : List (String × β)} {m : String} {v : β},
    alookup l m = some v → (m, v) ∈ l := by
  intro l
  induction l with
  | nil => intro m v h; simp [alookup] at h
  | cons p rest ih =>
    intro m v h
    obtain ⟨n, w⟩ := p
    simp only [alookup] at h
    split at h
    · rename_i hn
      cases h
      subst hn
      exact List.mem_cons_self _ _
    · exact List.mem_cons_of_mem _ (ih h)

/-! Lemmas for claim C5 (patent status venue). -/

theorem isWordChar_spec {c : Char} (h : isWordChar c = true) :
    isWs c = false ∧ c ≠ '-' ∧ c ≠ '_' := by
  refine ⟨?_, ?_, ?_⟩
  · by_cases hws : isWs c = true
    · exfalso
      unfold isWordChar at h
      rw [hws] at h
      simp at h
    · simpa using hws
  · intro he; subst he; exact absurd h (by decide)
  · intro he; subst he; exact absurd h (by decide)

theorem statusRunGo_word : ∀ cs : List Char, (∃ c ∈ cs, isWordChar c = true) →
    ∀ flag : Bool, ∃ c ∈ statusRunGo flag cs, c ≠ '_' := by
  intro cs
  induction cs with
  | nil => intro h; simp at h
  | cons c cs ih =>
    intro h flag
    by_cases hc : (isWs c || c = '-') = true
    · have hw : ∃ w ∈ cs, isWordChar w = true := by
        obtain ⟨w, hw, hwc⟩ := h
        rcases List.mem_cons.mp hw with rfl | hw2
        · exfalso
          rcases Bool.or_eq_true_iff.mp hc with h1 | h1
          · rw [(isWordChar_spec hwc).1] at h1
            exact Bool.false_ne_true h1
          · exact (isWordChar_spec hwc).2.1 (by simpa using h1)
        · exact ⟨w, hw2, hwc⟩
      obtain ⟨w, hw2, hne⟩ := ih hw true
      cases flag with
      | true =>
        simp only [statusRunGo, hc, if_true]
        exact ⟨w, hw2, hne⟩
      | false =>
        simp only [statusRunGo, hc, if_true]
        exact ⟨w, List.mem_cons_of_mem _ hw2, hne⟩
    · simp only [statusRunGo, hc, if_false]
      by_cases hcw : isWordChar c = true
      · exact ⟨c, List.mem_cons_self _ _, (isWordChar_spec hcw).2.2⟩
      · have hw : ∃ w ∈ cs, isWordChar w = true := by
          obtain ⟨w, hw, hwc⟩ := h
          rcases List.mem_cons.mp hw with rfl | hw2
          · exact absurd hwc hcw
          · exact ⟨w, hw2, hwc⟩
        obtain ⟨w, hw2, hne⟩ := ih hw false
        exact ⟨w, List.mem_cons_of_mem _ hw2, hne⟩

theorem splitOnChar_word {sep : Char} : ∀ {cs : List Char}, (∃ c ∈ cs, c ≠ sep) →
    ∃ t ∈ splitOnChar sep cs, t ≠ [] := by
  intro cs
  induction cs with
  | nil => intro h; simp at h
  | cons c cs ih =>
    intro h
    by_cases hc : c = sep
    · simp only [splitOnChar, hc, if_true]
      have hw : ∃ w ∈ cs, w ≠ sep := by
        obtain ⟨w, hw, hwc⟩ := h
        rcases List.mem_cons.mp hw with rfl | hw2
        · exact absurd hc hwc
        · exact ⟨w, hw2, hwc⟩
      obtain ⟨t, ht, htne⟩ := ih hw
      exact ⟨t, List.mem_cons_of_mem _ ht, htne⟩
    · simp only [splitOnChar, hc, if_false]
      cases hsp : splitOnChar sep cs with
      | nil => exact ⟨[c], by simp, by simp⟩
      | cons p ps => exact ⟨c :: p, by simp, by simp⟩

theorem formatPatentStatus_ne_empty {s : String} (h : hasWordChar s = true) :
    formatPatentStatus s ≠ "" := by
  have hs : s ≠ "" := by
    intro he
    rw [he] at h
    simp [hasWordChar] at h
  unfold formatPatentStatus
  rw [if_neg hs]
  cases hl : alookup STATUS_LABELS ((statusRunGo false (s.toList.map Char.toLower)).asString) with
  | some label =>
    have hmem := alookup_mem hl
    simp only [STATUS_LABELS, List.mem_cons, List.mem_singleton, Prod.mk.injEq] at hmem
    rcases hmem with ⟨_, rfl⟩ | ⟨_, rfl⟩ | ⟨_, rfl⟩ | ⟨_, rfl⟩ | hmem
    · exact (by decide : ("Published application" : String) ≠ "")
    · exact (by decide : ("Granted" : String) ≠ "")
    · exact (by decide : ("Pending" : String) ≠ "")
    · exact (by decide : ("Abandoned" : String) ≠ "")
    · simp at hmem
  | none =>
    have hword : ∃ c ∈ statusRunGo false (s.toList.map Char.toLower), c ≠ '_' := by
      refine statusRunGo_word _ ?_ false
      simpa [hasWordChar, List.any_eq_true] using h
    have hsp : ∃ t ∈ splitOnChar '_'
        ((statusRunGo false (s.toList.map Char.toLower)).asString).toList, t ≠ [] := by
      rw [toList_asString]
      exact splitOnChar_word hword
    obtain ⟨t, ht, htne⟩ := hsp
    have hmem : t ∈ (splitOnChar '_'
        ((statusRunGo false (s.toList.map Char.toLower)).asString).toList).filter
        (fun t => t ≠ []) := List.mem_filter.mpr ⟨ht, by simpa using htne⟩
    have hgoal : String.intercalate " "
        ((((splitOnChar '_'
            ((statusRunGo false (s.toList.map Char.toLower)).asString).toList).filter
          (fun t => t ≠ [])).map capFirst)) ≠ "" := by
      cases hL : (splitOnChar '_'
          ((statusRunGo false (s.toList.map Char.toLower)).asString).toList).filter
          (fun t => t ≠ []) with
      | nil => rw [hL] at hmem; simp at hmem
      | cons t0 ts =>
        have ht0 : t0 ≠ [] := by
          have hmem0 : t0 ∈ (splitOnChar '_'
              ((statusRunGo false (s.toList.map Char.toLower)).asString).toList).filter
              (fun t => t ≠ []) := by rw [hL]; exact List.mem_cons_self _ _
          simpa using (List.of_mem_filter hmem0)
        have hcap : capFirst t0 ≠ "" := by
          cases t0 with
          | nil => exact absurd rfl ht0
          | cons c cs =>
            unfold capFirst
            exact asString_ne_empty (by simp)
        simp only [List.map_cons]
        exact intercalate_cons_ne_empty " " _ hcap
    exact hgoal

theorem ifs_eq_filter (a b c : String) :
    ((if a ≠ "" then [a] else []) ++ ((if b ≠ "" then [b] else []) ++
        (if c ≠ "" then [c] else [])))
      = [a, b, c].filter (fun p => p ≠ "") := by
  by_cases ha : a = "" <;> by_cases hb : b = "" <;> by_cases hc : c = "" <;>
    simp [ha, hb, hc, List.filter_cons]

theorem buildVenue_patent (e : BibEntry) (ht : e.type = "patent") :
    buildVenue e =
      joinPieces
        ((if formatPatentStatus (fieldVal e "status") ≠ "" then
            ["Status: " ++ formatPatentStatus (fieldVal e "status")]
          else [])
          ++ (if fieldVal e "number" ≠ "" then [fieldVal e "number"] else [])
          ++ (if fieldVal e "location" ≠ "" then [fieldVal e "location"] else [])
          ++ (if fieldVal e "date" ≠ "" then [fieldVal e "date"] else [])) := by
  unfold buildVenue
  rw [ht, if_neg (by decide : ¬("patent" : String) = "article"),
    if_neg (by decide : ¬("patent" : String) = "inproceedings"), if_pos rfl]

/-- Claim C5 counterexample: the patent entry with the non-empty status
field `"-"` yields the empty status label, so its venue is just `"123"` and
does not begin with `"Status: "`, contradicting the claim as stated. -/
theorem C5_counterexample :
    buildVenue ⟨"patent", "k", [("status", "-"), ("number", "123")]⟩ = "123"
      ∧ fieldVal ⟨"patent", "k", [("status", "-"), ("number", "123")]⟩ "status" ≠ ""
      ∧ ("123" : String).toList.take 8 ≠ "Status: ".toList := by
  refine ⟨by decide, by decide, by decide⟩

/-- Claim C5 (amended): for every patent-type entry whose status field
contains at least one character other than whitespace, hyphen or underscore,
the venue is the status piece `"Status: " ++ formatPatentStatus status`
followed, in order, by the non-empty ones among patent number, location and
date, comma-joined — so the venue begins with the status piece — and the
fixed status-code table maps `published-application` to the label
`Published application`. -/
theorem C5_patent_status_amended (e : BibEntry) (ht : e.type = "patent")
    (hs : hasWordChar (fieldVal e "status") = true) :
    buildVenue e =
        String.intercalate ", "
          (("Status: " ++ formatPatentStatus (fieldVal e "status")) ::
            ([fieldVal e "number", fieldVal e "location", fieldVal e "date"].filter
              (fun p => p ≠ "")))
      ∧ formatPatentStatus "published-application" = "Published application" := by
  refine ⟨?_, by decide⟩
  have hlab := formatPatentStatus_ne_empty hs
  have hsp : ("Status: " ++ formatPatentStatus (fieldVal e "status")) ≠ "" :=
    append_ne_empty_left (formatPatentStatus (fieldVal e "status")) (by decide)
  rw [buildVenue_patent e ht, if_pos hlab]
  unfold joinPieces
  rw [List.append_assoc, List.append_assoc, ifs_eq_filter, List.singleton_append,
    List.filter_cons_of_pos (by simpa using hsp)]
  congr 1
  congr 1
  rw [List.filter_filter]
  exact List.filter_congr (fun x _ => Bool.and_self _)

/-- Witness for C5: a concrete patent entry with a published-application
status renders the predicted venue. -/
theorem C5_patent_status_amended_witness :
    buildVenue ⟨"patent", "k", [("status", "published-application"), ("number", "123")]⟩
      = "Status: Published application, 123" := by
  have h := C5_patent_status_amended
    ⟨"patent", "k", [("status", "published-application"), ("number", "123")]⟩ rfl (by decide)
  rw [h.1]
  decide

/-- Claim C6: the input record
`@article{k1, author = {Doe, Jane and Smith, John}, title = {T}, year = {2020}, journal = {J}}`
is classified into category `Publications` under year bucket `2020`, its
author display string is `Jane Doe, John Smith`, and its venue string is
`J`. -/
theorem C6_article_scenario :
    pubGroups (cleanEntries (parseBib "@article\x7bk1, author = \x7bDoe, Jane and Smith, John\x7d, title = \x7bT\x7d, year = \x7b2020\x7d, journal = \x7bJ\x7d\x7d"))
        = [("2020", [("Publications",
            [⟨"article", "k1",
              [("author", "Doe, Jane and Smith, John"), ("title", "T"), ("year", "2020"),
                ("journal", "J")]⟩])])]
      ∧ normalizeAuthorList
          (fieldVal
            ⟨"article", "k1",
              [("author", "Doe, Jane and Smith, John"), ("title", "T"), ("year", "2020"),
                ("journal", "J")]⟩ "author") = "Jane Doe, John Smith"
      ∧ buildVenue
          ⟨"article", "k1",
            [("author", "Doe, Jane and Smith, John"), ("title", "T"), ("year", "2020"),
              ("journal", "J")]⟩ = "J" := by
  refine ⟨by decide, by decide, by decide⟩

/-- Claim C3 counterexample: the article entry has its highest-priority
candidate field `final_draft` present with the value `draft notes`, which
does not look like a link; the claim says such a value is rewritten under
`pdfs/` to form the link href, but `buildLinks` returns no link at all. -/
theorem C3_counterexample :
    fieldVal ⟨"article", "k", [("final_draft", "draft notes")]⟩ "final_draft" = "draft notes"
      ∧ looksLikeLink "draft notes" = false
      ∧ buildLinks (fun _ => false) ⟨"article", "k", [("final_draft", "draft notes")]⟩ = [] := by
  refine ⟨by decide, by decide, by decide⟩

/-- Claim C3 (amended): in the Link Resolver, a present candidate value is
accepted only if it looks like a link; a present candidate value that does
not look like a link is skipped (the resolver falls through to the next
candidate field, and if no candidate looks like a link the state is
unchanged); and an accepted value that is not an absolute URL, `mailto:` or
path — i.e. one accepted only through the document-extension test — is
rewritten under the fixed `pdfs/` asset-directory prefix to form the href. -/
theorem C3_link_resolution_amended (e : BibEntry) (label : String) (names : List String)
    (links : List Link) :
    ((∀ n ∈ names, fieldVal e n = "" ∨ looksLikeLink (fieldVal e n) = false) →
        addAssetLink e label names links = links)
      ∧ (∀ n ns, names = n :: ns → fieldVal e n ≠ "" →
          looksLikeLink (fieldVal e n) = false →
          addAssetLink e label names links = addAssetLink e label ns links)
      ∧ ∀ v : String, looksLikeLink v = true → isUrlOrPath (trimChars v.toList) = false →
          normalizeLinkTarget v = "pdfs/" ++ (trimChars v.toList).asString := by
  refine ⟨?_, ?_, ?_⟩
  · intro h
    induction names with
    | nil => rfl
    | cons n ns ih =>
      have hn := h n (List.mem_cons_self n ns)
      simp only [addAssetLink]
      rcases hn with hn | hn
      · rw [if_pos hn]
        exact ih (fun m hm => h m (List.mem_cons_of_mem n hm))
      · by_cases hv : fieldVal e n = ""
        · rw [if_pos hv]
          exact ih (fun m hm => h m (List.mem_cons_of_mem n hm))
        · rw [if_neg hv, if_neg (by simp [hn])]
          exact ih (fun m hm => h m (List.mem_cons_of_mem n hm))
  · intro n ns hnames hv hl
    subst hnames
    simp only [addAssetLink]
    rw [if_neg hv, if_neg (by simp [hl])]
  · intro v _ hp
    unfold normalizeLinkTarget
    rw [if_neg (by simp [show isUrlOrPath (trimChars v.data) = false from hp])]

/-- Witness for C3: a present non-link value is skipped, and a bare
document filename is rewritten under `pdfs/`. -/
theorem C3_link_resolution_amended_witness :
    addAssetLink ⟨"article", "k", [("final_draft", "draft notes")]⟩ "Final Draft"
        ["final_draft"] [] = []
      ∧ normalizeLinkTarget "final poster.pdf" = "pdfs/final poster.pdf" := by
  constructor
  · exact (C3_link_resolution_amended ⟨"article", "k", [("final_draft", "draft notes")]⟩
      "Final Draft" ["final_draft"] []).1 (by decide)
  · exact ((C3_link_resolution_amended ⟨"article", "k", []⟩ "x" [] []).2.2
      "final poster.pdf" (by decide) (by decide)).trans (by decide)

/-! Lemmas for claim C4 (link dedup). -/

theorem hrefs_eq_map (l : List Link) : hrefs l = List.map Link.href l := rfl

theorem addLink_nodup {links : List Link} (label href : String)
    (h : (List.map Link.href links).Nodup) :
    (List.map Link.href (addLink links label href)).Nodup := by
  unfold addLink
  split
  · exact h
  · rename_i hc
    have hc2 : href ∉ List.map Link.href links := by
      intro hm
      exact hc (by simp [hrefs_eq_map, hm])
    rw [List.map_append]
    simp only [List.map_cons, List.map_nil]
    rw [List.nodup_append]
    refine ⟨h, List.nodup_singleton _, ?_⟩
    intro x hx hx2
    simp only [List.mem_singleton] at hx2
    subst hx2
    exact hc2 hx

theorem addAssetLink_nodup (e : BibEntry) (label : String) :
    ∀ (names : List String) (links : List Link),
      (List.map Link.href links).Nodup →
        (List.map Link.href (addAssetLink e label names links)).Nodup := by
  intro names
  induction names with
  | nil => intro links h; exact h
  | cons n ns ih =>
    intro links h
    simp only [addAssetLink]
    split
    · exact ih links h
    · split
      · exact addLink_nodup _ _ h
      · exact ih links h

/-- Claim C4: for every presence oracle and every entry, the link list
returned by `buildLinks` has pairwise distinct href strings. -/
theorem C4_buildLinks_nodup (assetExists : String → Bool) (e : BibEntry) :
    (hrefs (buildLinks assetExists e)).Nodup := by
  rw [hrefs_eq_map]
  unfold buildLinks
  split_ifs
  all_goals try dsimp only
  · split
    · exact addLink_nodup _ _ (addAssetLink_nodup _ _ _ _ (by simp))
    · exact addAssetLink_nodup _ _ _ _ (by simp)
  · split
    · exact addLink_nodup _ _ (addAssetLink_nodup _ _ _ _ (addAssetLink_nodup _ _ _ _ (by simp)))
    · exact addAssetLink_nodup _ _ _ _ (addAssetLink_nodup _ _ _ _ (by simp))
  · split
    · exact
        addLink_nodup _ _
          (addAssetLink_nodup _ _ _ _ (addAssetLink_nodup _ _ _ _ (addAssetLink_nodup _ _ _ _ (by simp))))
    · exact addAssetLink_nodup _ _ _ _ (addAssetLink_nodup _ _ _ _ (addAssetLink_nodup _ _ _ _ (by simp)))
  · split
    · exact addLink_nodup _ _ (addAssetLink_nodup _ _ _ _ (by simp))
    · exact addAssetLink_nodup _ _ _ _ (by simp)
  all_goals
    (repeat first
      | split
      | apply addLink_nodup
      | apply addAssetLink_nodup)
  all_goals
    (repeat
      first
      | apply addLink_nodup
      | apply addAssetLink_nodup)
  all_goals try split
  all_goals
    (repeat
      first
      | apply addLink_nodup
      | apply addAssetLink_nodup)
  all_goals try split
  all_goals
    (repeat
      first
      | apply addLink_nodup
      | apply addAssetLink_nodup)
  all_goals simp

/-! C8: the value reader is total and reads unterminated values to the end. -/

theorem braceScanGo_suffix (cs : List Char) :
    ∀ d : Int, (braceScanGo d cs).2.IsSuffix cs := by
  induction cs with
  | nil => intro d; simp [braceScanGo]
  | cons c cs ih =>
    intro d
    simp only [braceScanGo]
    by_cases h1 : c = '{'
    · rw [if_pos h1]
      exact ((ih (d + 1)).trans (List.suffix_cons c cs))
    · rw [if_neg h1]
      by_cases h2 : c = '}'
      · rw [if_pos h2]
        by_cases h3 : d - 1 = 0
        · rw [if_pos h3]
          exact List.suffix_cons c cs
        · rw [if_neg h3]
          exact ((ih (d - 1)).trans (List.suffix_cons c cs))
      · rw [if_neg h2]
        exact ((ih d).trans (List.suffix_cons c cs))

theorem quoteScanGo_suffix (tl : List Char) :
    ∀ prev : Char, (quoteScanGo prev tl).2.IsSuffix tl := by
  induction tl with
  | nil => intro prev; simp [quoteScanGo]
  | cons c cs ih =>
    intro prev
    simp only [quoteScanGo]
    split
    · exact List.suffix_cons c cs
    · exact ((ih c).trans (List.suffix_cons c cs))

theorem braceScanGo_exhaust (cs : List Char) :
    ∀ d : Int,
      (∀ k, 1 ≤ k → k ≤ cs.length →
        d + ((cs.take k).count '{' : Int) - ((cs.take k).count '}' : Int) ≠ 0) →
      braceScanGo d cs = (cs, []) := by
  induction cs with
  | nil => intro d _; rfl
  | cons c cs ih =>
    intro d h
    simp only [braceScanGo]
    by_cases h1 : c = '{'
    · rw [if_pos h1]
      have hrec := ih (d + 1) (fun k hk1 hk2 => by
        have h3 := h (k + 1) (by omega) (by simpa using hk2)
        subst h1
        simp only [List.take_succ_cons, List.count_cons] at h3
        intro hz
        apply h3
        push_cast
        simp only [Char.reduceBEq, beq_self_eq_true, if_true, if_false] at *
        omega)
      rw [hrec]
    · rw [if_neg h1]
      by_cases h2 : c = '}'
      · rw [if_pos h2]
        have h3 := h 1 (by omega) (by simp)
        subst h2
        simp only [List.take_succ_cons, List.take_zero, List.count_cons, List.count_nil,
          Char.reduceBEq, beq_self_eq_true, if_true, if_false] at h3
        rw [if_neg (by intro hd; apply h3; push_cast; omega)]
        have hrec := ih (d - 1) (fun k hk1 hk2 => by
          have h4 := h (k + 1) (by omega) (by simpa using hk2)
          simp only [List.take_succ_cons, List.count_cons, Char.reduceBEq, beq_self_eq_true,
            if_true, if_false] at h4
          intro hz
          apply h4
          push_cast
          omega)
        rw [hrec]
      · rw [if_neg h2]
        have hrec := ih d (fun k hk1 hk2 => by
          have h3 := h (k + 1) (by omega) (by simpa using hk2)
          simp only [List.take_succ_cons, List.count_cons] at h3
          intro hz
          apply h3
          have e1 : (c == '{') = false := by simp [h1]
          have e2 : (c == '}') = false := by simp [h2]
          rw [e1, e2] at *
          simpa using hz)
        rw [hrec]

theorem quoteScanGo_exhaust (tl : List Char) :
    ∀ prev : Char,
      (∀ j < tl.length, ¬(tl.getD j ' ' = '"' ∧ prevAt prev tl j ≠ '\\')) →
      quoteScanGo prev tl = (tl, []) := by
  induction tl with
  | nil => intro prev _; rfl
  | cons c cs ih =>
    intro prev h
    simp only [quoteScanGo]
    have h0 := h 0 (by simp)
    simp only [List.getD_cons_zero, prevAt, if_pos rfl] at h0
    rw [if_neg (by
      intro hb
      apply h0
      constructor
      · exact of_decide_eq_true (Bool.and_elim_left hb)
      · exact of_decide_eq_true (Bool.and_elim_right hb))]
    have hrec := ih c (fun j hj => by
      have h2 := h (j + 1) (by simpa using hj)
      intro hcontra
      apply h2
      constructor
      · simpa using hcontra.1
      · simp only [prevAt, Nat.add_sub_cancel, if_false, Nat.succ_ne_zero]
        rcases Nat.eq_zero_or_pos j with hj0 | hjpos
        · subst hj0
          simpa [prevAt] using hcontra.2
        · have hj1 : j - 1 + 1 = j := by omega
          have : cs.getD (j - 1) ' ' ≠ '\\' := by
            have := hcontra.2
            simpa [prevAt, Nat.pos_iff_ne_zero.mp hjpos] using this
          rw [show (c :: cs).getD j ' ' = cs.getD (j - 1) ' ' by
            rw [show j = j - 1 + 1 by omega]; simp]
          simpa using this)
    rw [hrec]

/-- Claim C8: for every remaining input the value reader returns a value and a
next cursor that is a suffix of the input (the cursor never leaves the text),
and an unterminated brace-delimited or quote-delimited value is read through
to the end of the input: the value is the whole remaining text and the next
cursor is the end. -/
theorem C8_readBibValue_total (cs : List Char) :
    (readBibValue cs).2.IsSuffix cs ∧
      (unterminatedBrace cs → readBibValue cs = (cs.asString, [])) ∧
      (∀ rest, cs = '"' :: rest → noQuoteEnd rest →
        readBibValue cs = (rest.asString, [])) := by
  refine ⟨?_, ?_, ?_⟩
  · unfold readBibValue
    split
    · exact braceScanGo_suffix _ 0
    · exact ((quoteScanGo_suffix _ '"').trans (List.suffix_cons _ _))
    · exact List.dropWhile_suffix _
  · intro hu
    obtain ⟨hh, hbal⟩ := hu
    cases cs with
    | nil => cases hh
    | cons c tl =>
      have hc : c = '{' := by simpa using hh
      subst hc
      simp only [readBibValue]
      rw [braceScanGo_exhaust ('{' :: tl) 0 (fun k hk1 hk2 => by
        have h5 := hbal k (by simpa using Nat.lt_succ_of_le hk2) hk1
        intro hz
        exact h5 (by omega))]
  · intro rest heq hq
    subst heq
    simp only [readBibValue]
    rw [quoteScanGo_exhaust rest '"' (fun j hj => by
      have h2 := hq j hj
      intro hcontra
      apply h2
      refine ⟨hcontra.1, ?_⟩
      by_cases hj0 : j = 0
      · exact Or.inl hj0
      · exact Or.inr (by simpa [prevAt, hj0] using hcontra.2))]

theorem C8_witness :
    unterminatedBrace "\x7babc".toList ∧
      readBibValue "\x7babc".toList = ("\x7babc", []) :=
  ⟨by decide, (C8_readBibValue_total "\x7babc".toList).2.1 (by decide)⟩

/-! C9: the parser loop makes strict progress and its fuel bound is exact. -/

theorem readBibValue_suffix (cs : List Char) : (readBibValue cs).2.IsSuffix cs := by
  unfold readBibValue
  split
  · exact braceScanGo_suffix _ 0
  · exact ((quoteScanGo_suffix _ '"').trans (List.suffix_cons _ _))
  · exact List.dropWhile_suffix _

theorem parseFieldsGo_suffix :
    ∀ (fuel : Nat) (fs : List (String × String)) (cs : List Char),
      (parseFieldsGo fuel fs cs).2.IsSuffix cs := by
  intro fuel
  induction fuel with
  | zero => intro fs cs; exact List.suffix_refl cs
  | succ fuel ih =>
    intro fs cs
    simp only [parseFieldsGo]
    split
    · exact List.nil_suffix
    · rename_i rest heq
      have h1 : ('}' :: rest).IsSuffix cs := heq ▸ List.dropWhile_suffix isCommaWs
      exact (List.suffix_cons '}' rest).trans h1
    · have hA : (cs.dropWhile isCommaWs).IsSuffix cs := List.dropWhile_suffix _
      have hB : (((cs.dropWhile isCommaWs).dropWhile isNameChar).dropWhile isWs).IsSuffix cs :=
        (List.dropWhile_suffix _).trans ((List.dropWhile_suffix _).trans hA)
      split
      · rename_i cs3 heq2
        have hC : ('=' :: cs3).IsSuffix cs := heq2 ▸ hB
        have hD : cs3.IsSuffix cs := (List.suffix_cons '=' cs3).trans hC
        have hE : (cs3.dropWhile isWs).IsSuffix cs := (List.dropWhile_suffix _).trans hD
        exact (ih _ _).trans ((readBibValue_suffix _).trans hE)
      · exact hB

theorem parseRecord_suffix (cs : List Char) : (parseRecord cs).2.IsSuffix cs := by
  unfold parseRecord
  dsimp only
  have hB : (((cs.dropWhile isWs).dropWhile Char.isAlpha).dropWhile isWs).IsSuffix cs :=
    (List.dropWhile_suffix _).trans
      ((List.dropWhile_suffix _).trans (List.dropWhile_suffix _))
  split
  · rename_i cs3 heq
    have hC : ('{' :: cs3).IsSuffix cs := heq ▸ hB
    have hD : cs3.IsSuffix cs := (List.suffix_cons '{' cs3).trans hC
    have hE : (cs3.dropWhile isWs).IsSuffix cs := (List.dropWhile_suffix _).trans hD
    have hF : ((cs3.dropWhile isWs).dropWhile (fun c => c ≠ ',')).IsSuffix cs :=
      (List.dropWhile_suffix _).trans hE
    split
    · rename_i cs6 heq2
      have hG : (',' :: cs6).IsSuffix cs := heq2 ▸ hF
      have hH : cs6.IsSuffix cs := (List.suffix_cons ',' cs6).trans hG
      exact (parseFieldsGo_suffix _ _ _).trans hH
    · exact hF
  · exact hB

theorem parseLoopGo_fuel_eq :
    ∀ (n : Nat) (cs : List Char), cs.length ≤ n →
      ∀ a b, cs.length < a → cs.length < b → parseLoopGo a cs = parseLoopGo b cs := by
  intro n
  induction n with
  | zero =>
    intro cs hn a b ha hb
    have hcs : cs = [] := List.eq_nil_of_length_eq_zero (Nat.le_zero.mp hn)
    subst hcs
    obtain ⟨a', rfl⟩ : ∃ a', a = a' + 1 := ⟨a - 1, by omega⟩
    obtain ⟨b', rfl⟩ : ∃ b', b = b' + 1 := ⟨b - 1, by omega⟩
    rfl
  | succ n ih =>
    intro cs hn a b ha hb
    obtain ⟨a', rfl⟩ : ∃ a', a = a' + 1 := ⟨a - 1, by omega⟩
    obtain ⟨b', rfl⟩ : ∃ b', b = b' + 1 := ⟨b - 1, by omega⟩
    simp only [parseLoopGo]
    split
    · rfl
    · rename_i c rest heq
      have h1 : (c :: rest).length ≤ cs.length :=
        (heq ▸ List.dropWhile_suffix (fun c => c ≠ '@')).length_le
      have h2 := (parseRecord_suffix rest).length_le
      simp only [List.length_cons] at h1
      congr 1
      exact ih (parseRecord rest).2 (by omega) a' b' (by omega) (by omega)

/-- Claim C9: the outer parse loop is total on every input, however
malformed — once the fuel exceeds the input length the result no longer
depends on it (so `parseBib`, which runs the loop with fuel `length + 1`,
computes the loop's limit), and each iteration makes strict progress: the
cursor resumes strictly later after every located `@`, since the `@` is
consumed before the record attempt and the attempt only moves forward. -/
theorem C9_parseBib_total (tex : String) (fuel : Nat) (h : tex.toList.length < fuel) :
    parseLoopGo fuel tex.toList = parseBib tex ∧
    ∀ (cs : List Char) (c : Char) (rest : List Char),
      cs.dropWhile (fun x => x ≠ '@') = c :: rest →
      (parseRecord rest).2.length < cs.length := by
  constructor
  · exact parseLoopGo_fuel_eq tex.toList.length tex.toList (le_refl _) fuel
      (tex.toList.length + 1) h (Nat.lt_succ_self _)
  · intro cs c rest heq
    have h1 : (c :: rest).length ≤ cs.length :=
      (heq ▸ List.dropWhile_suffix (fun x => x ≠ '@')).length_le
    have h2 := (parseRecord_suffix rest).length_le
    simp only [List.length_cons] at h1
    omega

theorem C9_witness :
    "@a".toList.length < 9 ∧ parseLoopGo 9 "@a".toList = parseBib "@a" :=
  ⟨by decide, (C9_parseBib_total "@a" 9 (by decide)).1⟩

/-- Claim C2: `cleanEntries` returns the normalized entries sorted by the
source comparator — numeric year descending (year from `fields.year`, else
the first four characters of `fields.date`, else `"Unknown"`, non-numeric
coerced to 0), ties broken by title ascending with a missing title read as
the empty string — as a permutation of the normalized input, and stably: any
class of entries agreeing on both sort keys keeps its original relative
order. -/
theorem C2_cleanEntries_order (es : List BibEntry) :
    List.Sorted entryLE (cleanEntries es) ∧
      (cleanEntries es).Perm (es.map cleanEntry) ∧
      ∀ (y : ℚ) (t : String),
        (cleanEntries es).filter
            (fun e => decide (yearNum e = y) && decide (titleOf e = t)) =
          (es.map cleanEntry).filter
            (fun e => decide (yearNum e = y) && decide (titleOf e = t)) := by
  refine ⟨List.sorted_insertionSort _ _, List.perm_insertionSort _ _, ?_⟩
  intro y t
  set p : BibEntry → Bool :=
    fun e => decide (yearNum e = y) && decide (titleOf e = t) with hp
  have hclass : ∀ a, p a = true → ∀ b, p b = true → entryLE a b := by
    intro a ha b hb
    simp only [hp, Bool.and_eq_true, decide_eq_true_eq] at ha hb
    exact Or.inr ⟨ha.1.trans hb.1.symm, by unfold strLE; rw [ha.2, hb.2]⟩
  have hpair : ((es.map cleanEntry).filter p).Pairwise entryLE :=
    List.pairwise_of_forall_mem_list (fun a ha b hb =>
      hclass a (List.of_mem_filter ha) b (List.of_mem_filter hb))
  have hsub : ((es.map cleanEntry).filter p).Sublist (cleanEntries es) :=
    List.sublist_insertionSort hpair (List.filter_sublist _)
  have hsub2 :
      (((es.map cleanEntry).filter p).filter p).Sublist ((cleanEntries es).filter p) :=
    hsub.filter p
  have hff : ((es.map cleanEntry).filter p).filter p = (es.map cleanEntry).filter p := by
    rw [List.filter_filter]
    exact List.filter_congr (fun x _ => Bool.and_self _)
  rw [hff] at hsub2
  have hlen : ((cleanEntries es).filter p).length = ((es.map cleanEntry).filter p).length :=
    ((List.perm_insertionSort _ _).filter p).length_eq
  exact (hsub2.eq_of_length hlen.symm).symm

/-! C10: the entry pass drops no entry and touches only the fields. -/

theorem setField_mem :
    ∀ (acc : List (String × String)) (n v : String) (p : String × String),
      p ∈ setField acc n v → p ∈ acc ∨ p = (n, v) := by
  intro acc
  induction acc with
  | nil =>
    intro n v p hp
    simp only [setField, List.mem_singleton] at hp
    exact Or.inr hp
  | cons q fs ih =>
    intro n v p hp
    obtain ⟨n0, v0⟩ := q
    simp only [setField] at hp
    by_cases h : n0 = n
    · rw [if_pos h] at hp
      rcases List.mem_cons.mp hp with h1 | h1
      · exact Or.inr (by rw [h1, h])
      · exact Or.inl (List.mem_cons_of_mem _ h1)
    · rw [if_neg h] at hp
      rcases List.mem_cons.mp hp with h1 | h1
      · exact Or.inl (by rw [h1]; exact List.mem_cons_self _ _)
      · rcases ih n v p h1 with h2 | h2
        · exact Or.inl (List.mem_cons_of_mem _ h2)
        · exact Or.inr h2

theorem cleanFields_mem :
    ∀ (fs acc : List (String × String)) (p : String × String),
      p ∈ fs.foldl
        (fun acc p =>
          if p.1 ∈ DROP_FIELDS then acc
          else if bibToText p.2 = "" then acc
          else setField acc p.1 (bibToText p.2)) acc →
      p ∈ acc ∨
        (p.1 ∉ DROP_FIELDS ∧ p.2 ≠ "" ∧ ∃ q ∈ fs, q.1 = p.1 ∧ bibToText q.2 = p.2) := by
  intro fs
  induction fs with
  | nil => intro acc p hp; exact Or.inl hp
  | cons q fs ih =>
    intro acc p hp
    rw [List.foldl_cons] at hp
    rcases ih _ p hp with h1 | h1
    · split_ifs at h1 with hd he
      · exact Or.inl h1
      · exact Or.inl h1
      · rcases setField_mem _ _ _ _ h1 with h2 | h2
        · exact Or.inl h2
        · subst h2
          refine Or.inr ⟨by simpa using hd, by simpa using he, q,
            List.mem_cons_self _ _, rfl, rfl⟩
    · obtain ⟨hdrop, hne, r, hr, hr1, hr2⟩ := h1
      exact Or.inr ⟨hdrop, hne, r, List.mem_cons_of_mem _ hr, hr1, hr2⟩

/-- Claim C10: `cleanEntries` preserves the number of entries — its output is
a permutation of the per-entry normalization of the input, so no entry is
dropped — each input entry's image keeps that entry's type and key, and only
the field list changes: every surviving field has a non-denylisted name, a
non-empty normalized value, and originates from an input field of the same
name whose value normalizes to it. -/
theorem C10_cleanEntries_frame (es : List BibEntry) :
    (cleanEntries es).length = es.length ∧
      (cleanEntries es).Perm (es.map cleanEntry) ∧
      (∀ e ∈ es, cleanEntry e ∈ cleanEntries es) ∧
      (∀ e : BibEntry, (cleanEntry e).type = e.type ∧ (cleanEntry e).key = e.key) ∧
      ∀ e : BibEntry, ∀ p ∈ (cleanEntry e).fields,
        p.1 ∉ DROP_FIELDS ∧ p.2 ≠ "" ∧ ∃ q ∈ e.fields, q.1 = p.1 ∧ bibToText q.2 = p.2 := by
  have hperm : (cleanEntries es).Perm (es.map cleanEntry) := List.perm_insertionSort _ _
  refine ⟨?_, hperm, ?_, ?_, ?_⟩
  · rw [hperm.length_eq, List.length_map]
  · intro e he
    exact hperm.mem_iff.mpr (List.mem_map_of_mem _ he)
  · intro e
    exact ⟨rfl, rfl⟩
  · intro e p hp
    rcases cleanFields_mem e.fields [] p hp with h | h
    · exact absurd h (List.not_mem_nil p)
    · exact h

theorem C10_witness :
    cleanEntry ⟨"article", "k", [("title", "T")]⟩ ∈
      cleanEntries [⟨"article", "k", [("title", "T")]⟩] :=
  (C10_cleanEntries_frame [⟨"article", "k", [("title", "T")]⟩]).2.2.1 _
    (List.mem_singleton_self _)

/-! C7: grouping lemmas. -/

theorem catsFlat_pushCat :
    ∀ (cats : List (String × List BibEntry)) (c : String) (e : BibEntry),
      (catsFlat (pushCat cats c e)).Perm (e :: catsFlat cats) := by
  intro cats
  induction cats with
  | nil => intro c e; simp [pushCat, catsFlat]
  | cons p rest ih =>
    intro c e
    obtain ⟨c0, es0⟩ := p
    simp only [pushCat]
    by_cases h : c0 = c
    · rw [if_pos h]
      simp only [catsFlat, List.map_cons, List.flatten_cons]
      rw [List.append_assoc]
      exact List.perm_middle
    · rw [if_neg h]
      simp only [catsFlat, List.map_cons, List.flatten_cons]
      exact (List.Perm.append_left es0 (ih c e)).trans List.perm_middle

theorem groupsFlat_pushYear :
    ∀ (b : List (String × List (String × List BibEntry))) (y c : String) (e : BibEntry),
      (groupsFlat (pushYear b y c e)).Perm (e :: groupsFlat b) := by
  intro b
  induction b with
  | nil => intro y c e; simp [pushYear, groupsFlat, catsFlat, pushCat]
  | cons p rest ih =>
    intro y c e
    obtain ⟨y0, cats⟩ := p
    simp only [pushYear]
    by_cases h : y0 = y
    · rw [if_pos h]
      simp only [groupsFlat, List.map_cons, List.flatten_cons]
      exact (catsFlat_pushCat cats c e).append_right _
    · rw [if_neg h]
      simp only [groupsFlat, List.map_cons, List.flatten_cons]
      exact (List.Perm.append_left _ (ih y c e)).trans List.perm_middle

theorem groupsFlat_foldl :
    ∀ (es : List BibEntry) (b : List (String × List (String × List BibEntry))),
      (groupsFlat (es.foldl
          (fun b e => pushYear b (getYear e) (categoryOf e.type) e) b)).Perm
        (es ++ groupsFlat b) := by
  intro es
  induction es with
  | nil => intro b; simp
  | cons e es ih =>
    intro b
    rw [List.foldl_cons]
    refine (ih _).trans ?_
    refine (List.Perm.append_left es (groupsFlat_pushYear b _ _ e)).trans ?_
    exact List.perm_middle

theorem groupsFlat_bucketsOf (es : List BibEntry) :
    (groupsFlat (bucketsOf es)).Perm es := by
  have h := groupsFlat_foldl es []
  simpa [groupsFlat] using h

theorem categoryOf_mem (t : String) : categoryOf t ∈ CATEGORY_ORDER := by
  unfold categoryOf
  cases h : alookup TYPE_TO_CATEGORY t with
  | none => simp [CATEGORY_ORDER]
  | some v =>
    have hm := alookup_mem h
    simp only [Option.getD_some]
    simp only [TYPE_TO_CATEGORY, List.mem_cons, List.not_mem_nil, or_false] at hm
    rcases hm with h1 | h1 | h1 | h1 | h1 | h1 <;>
      rw [show v = _ from congrArg Prod.snd h1] <;> decide

theorem alookup_of_mem_nodup {β : Type} :
    ∀ {l : List (String × β)} {k : String} {v : β},
      (l.map Prod.fst).Nodup → (k, v) ∈ l → alookup l k = some v := by
  intro l
  induction l with
  | nil => intro k v _ h; cases h
  | cons p rest ih =>
    intro k v hn hm
    obtain ⟨n, w⟩ := p
    simp only [List.map_cons, List.nodup_cons] at hn
    rcases List.mem_cons.mp hm with h1 | h1
    · injection h1 with hk hv
      subst hk; subst hv
      simp [alookup]
    · have hk : ¬(n = k) := fun he => hn.1 (he ▸ List.mem_map_of_mem Prod.fst h1)
      simp only [alookup, if_neg hk]
      exact ih hn.2 h1

theorem flatten_map_perm_of_mem {α β : Type} :
    ∀ (l : List α) (f g : α → List β), (∀ x ∈ l, (f x).Perm (g x)) →
      ((l.map f).flatten).Perm ((l.map g).flatten) := by
  intro l f g
  induction l with
  | nil => intro _; simp
  | cons x xs ih =>
    intro h
    simp only [List.map_cons, List.flatten_cons]
    exact (h x (List.mem_cons_self _ _)).append
      (ih (fun y hy => h y (List.mem_cons_of_mem _ hy)))

theorem filterMap_congr_mem {α β : Type} :
    ∀ (l : List α) (f g : α → Option β), (∀ a ∈ l, f a = g a) →
      l.filterMap f = l.filterMap g := by
  intro l f g
  induction l with
  | nil => intro _; rfl
  | cons x xs ih =>
    intro h
    rw [List.filterMap_cons, List.filterMap_cons, h x (List.mem_cons_self _ _),
      ih (fun y hy => h y (List.mem_cons_of_mem _ hy))]

theorem assoc_extract {β : Type} :
    ∀ (cats : List (String × β)) (c : String) (b : β),
      (cats.map Prod.fst).Nodup → alookup cats c = some b →
      ∃ rest : List (String × β),
        cats.Perm ((c, b) :: rest) ∧
          (rest.map Prod.fst).Nodup ∧
          (∀ x ∈ rest.map Prod.fst, x ∈ cats.map Prod.fst ∧ x ≠ c) ∧
          (∀ c', c' ≠ c → alookup rest c' = alookup cats c') ∧
          (∀ p ∈ rest, p ∈ cats) := by
  intro cats
  induction cats with
  | nil => intro c b _ h; simp [alookup] at h
  | cons p cats ih =>
    intro c b hn hlk
    obtain ⟨n, w⟩ := p
    simp only [List.map_cons, List.nodup_cons] at hn
    by_cases hnc : n = c
    · subst hnc
      rw [show alookup ((n, w) :: cats) n = some w by simp [alookup]] at hlk
      injection hlk with hw
      subst hw
      refine ⟨cats, List.Perm.refl _, hn.2, ?_, ?_, ?_⟩
      · intro x hx
        exact ⟨List.mem_cons_of_mem _ hx, fun he => hn.1 (he ▸ hx)⟩
      · intro c' hc'
        simp [alookup, if_neg (Ne.symm hc')]
      · intro q hq
        exact List.mem_cons_of_mem _ hq
    · rw [show alookup ((n, w) :: cats) c = alookup cats c by
        simp [alookup, if_neg hnc]] at hlk
      obtain ⟨rest, hperm, hnd, hkeys, hlk2, hmem⟩ := ih c b hn.2 hlk
      refine ⟨(n, w) :: rest, ?_, ?_, ?_, ?_, ?_⟩
      · exact (hperm.cons (n, w)).trans (List.Perm.swap _ _ _)
      · simp only [List.map_cons, List.nodup_cons]
        exact ⟨fun hx => hn.1 (hkeys n hx).1, hnd⟩
      · intro x hx
        rcases List.mem_cons.mp hx with h1 | h1
        · exact ⟨by simp [h1], by rw [h1]; exact hnc⟩
        · obtain ⟨h2, h3⟩ := hkeys x h1
          exact ⟨List.mem_cons_of_mem _ h2, h3⟩
      · intro c' hc'
        by_cases hnc' : n = c'
        · simp [alookup, hnc']
        · simp only [alookup, if_neg hnc']
          exact hlk2 c' hc'
      · intro q hq
        rcases List.mem_cons.mp hq with h1 | h1
        · exact h1 ▸ List.mem_cons_self _ _
        · exact List.mem_cons_of_mem _ (hmem q h1)

theorem filterMap_alookup_perm :
    ∀ (L : List String) (cats : List (String × List BibEntry)),
      L.Nodup → (cats.map Prod.fst).Nodup →
      (∀ p ∈ cats, p.1 ∈ L ∧ p.2 ≠ []) →
      (L.filterMap (fun c =>
          match alookup cats c with
          | some bucket =>
            if bucket.length = 0 then none
            else some (c, List.insertionSort titleLE bucket)
          | none => none)).Perm
        (cats.map (fun p => (p.1, List.insertionSort titleLE p.2))) := by
  intro L
  induction L with
  | nil =>
    intro cats _ _ hsub
    have hc : cats = [] := by
      cases cats with
      | nil => rfl
      | cons p rest => exact absurd (hsub p (List.mem_cons_self _ _)).1 (List.not_mem_nil _)
    subst hc
    simp
  | cons c L ih =>
    intro cats hL hcats hsub
    rw [List.nodup_cons] at hL
    rw [List.filterMap_cons]
    cases hlk : alookup cats c with
    | none =>
      apply ih cats hL.2 hcats
      intro p hp
      refine ⟨?_, (hsub p hp).2⟩
      rcases List.mem_cons.mp (hsub p hp).1 with h1 | h1
      · exfalso
        have h2 := alookup_of_mem_nodup hcats (show (c, p.2) ∈ cats by rw [← h1]; exact hp)
        rw [hlk] at h2
        cases h2
      · exact h1
    | some b =>
      have hmemb : (c, b) ∈ cats := alookup_mem hlk
      have hb : b ≠ [] := (hsub (c, b) hmemb).2
      dsimp only
      rw [if_neg (by simpa using hb)]
      dsimp only
      obtain ⟨rest, hperm, hnd, hkeys, hlk2, hmem⟩ := assoc_extract cats c b hcats hlk
      have hcongr :
          L.filterMap (fun c' =>
            match alookup cats c' with
            | some bucket =>
              if bucket.length = 0 then none
              else some (c', List.insertionSort titleLE bucket)
            | none => none) =
          L.filterMap (fun c' =>
            match alookup rest c' with
            | some bucket =>
              if bucket.length = 0 then none
              else some (c', List.insertionSort titleLE bucket)
            | none => none) := by
        apply filterMap_congr_mem
        intro c' hc'
        rw [hlk2 c' (fun he => hL.1 (he ▸ hc'))]
      rw [hcongr]
      have hrec := ih rest hL.2 hnd (fun p hp => by
        have h2 := hsub p (hmem p hp)
        refine ⟨?_, h2.2⟩
        rcases List.mem_cons.mp h2.1 with h3 | h3
        · exact absurd h3 (hkeys p.1 (List.mem_map_of_mem Prod.fst hp)).2
        · exact h3)
      refine (hrec.cons (c, List.insertionSort titleLE b)).trans ?_
      exact (hperm.map (fun p => (p.1, List.insertionSort titleLE p.2))).symm

theorem pushCat_ne_nil (cats : List (String × List BibEntry)) (c : String) (e : BibEntry) :
    pushCat cats c e ≠ [] := by
  cases cats with
  | nil => simp [pushCat]
  | cons p rest =>
    obtain ⟨c0, es0⟩ := p
    simp only [pushCat]
    split <;> simp

theorem pushCat_keys :
    ∀ (cats : List (String × List BibEntry)) (c : String) (e : BibEntry) (x : String),
      x ∈ (pushCat cats c e).map Prod.fst → x = c ∨ x ∈ cats.map Prod.fst := by
  intro cats
  induction cats with
  | nil =>
    intro c e x hx
    simp only [pushCat, List.map_cons, List.map_nil, List.mem_singleton] at hx
    exact Or.inl hx
  | cons p rest ih =>
    intro c e x hx
    obtain ⟨c0, es0⟩ := p
    simp only [pushCat] at hx
    by_cases h : c0 = c
    · rw [if_pos h] at hx
      simp only [List.map_cons, List.mem_cons] at hx
      rcases hx with h1 | h1
      · exact Or.inr (by simp [h1])
      · exact Or.inr (by simp [h1])
    · rw [if_neg h] at hx
      simp only [List.map_cons, List.mem_cons] at hx
      rcases hx with h1 | h1
      · exact Or.inr (by simp [h1])
      · rcases ih c e x h1 with h2 | h2
        · exact Or.inl h2
        · exact Or.inr (by simp [h2])

theorem pushCat_nodup :
    ∀ (cats : List (String × List BibEntry)) (c : String) (e : BibEntry),
      (cats.map Prod.fst).Nodup → ((pushCat cats c e).map Prod.fst).Nodup := by
  intro cats
  induction cats with
  | nil => intro c e _; simp [pushCat]
  | cons p rest ih =>
    intro c e hn
    obtain ⟨c0, es0⟩ := p
    simp only [List.map_cons, List.nodup_cons] at hn
    simp only [pushCat]
    by_cases h : c0 = c
    · rw [if_pos h]
      simp only [List.map_cons, List.nodup_cons]
      exact hn
    · rw [if_neg h]
      simp only [List.map_cons, List.nodup_cons]
      refine ⟨?_, ih c e hn.2⟩
      intro hx
      rcases pushCat_keys rest c e c0 hx with h1 | h1
      · exact h h1
      · exact hn.1 h1

theorem pushCat_props :
    ∀ (cats : List (String × List BibEntry)) (c : String) (e : BibEntry),
      c ∈ CATEGORY_ORDER → (∀ cb ∈ cats, cb.1 ∈ CATEGORY_ORDER ∧ cb.2 ≠ []) →
      ∀ cb ∈ pushCat cats c e, cb.1 ∈ CATEGORY_ORDER ∧ cb.2 ≠ [] := by
  intro cats
  induction cats with
  | nil =>
    intro c e hc _ cb hcb
    simp only [pushCat, List.mem_singleton] at hcb
    subst hcb
    exact ⟨hc, by simp⟩
  | cons p rest ih =>
    intro c e hc hall cb hcb
    obtain ⟨c0, es0⟩ := p
    simp only [pushCat] at hcb
    by_cases h : c0 = c
    · rw [if_pos h] at hcb
      rcases List.mem_cons.mp hcb with h1 | h1
      · subst h1
        exact ⟨(hall (c0, es0) (List.mem_cons_self _ _)).1, by simp⟩
      · exact hall cb (List.mem_cons_of_mem _ h1)
    · rw [if_neg h] at hcb
      rcases List.mem_cons.mp hcb with h1 | h1
      · subst h1
        exact hall (c0, es0) (List.mem_cons_self _ _)
      · exact ih c e hc (fun q hq => hall q (List.mem_cons_of_mem _ hq)) cb h1

theorem pushYear_keys :
    ∀ (b : List (String × List (String × List BibEntry))) (y c : String) (e : BibEntry)
      (x : String),
      x ∈ (pushYear b y c e).map Prod.fst → x = y ∨ x ∈ b.map Prod.fst := by
  intro b
  induction b with
  | nil =>
    intro y c e x hx
    simp only [pushYear, List.map_cons, List.map_nil, List.mem_singleton] at hx
    exact Or.inl hx
  | cons p rest ih =>
    intro y c e x hx
    obtain ⟨y0, cats⟩ := p
    simp only [pushYear] at hx
    by_cases h : y0 = y
    · rw [if_pos h] at hx
      simp only [List.map_cons, List.mem_cons] at hx
      rcases hx with h1 | h1
      · exact Or.inr (by simp [h1])
      · exact Or.inr (by simp [h1])
    · rw [if_neg h] at hx
      simp only [List.map_cons, List.mem_cons] at hx
      rcases hx with h1 | h1
      · exact Or.inr (by simp [h1])
      · rcases ih y c e x h1 with h2 | h2
        · exact Or.inl h2
        · exact Or.inr (by simp [h2])

theorem pushYear_good :
    ∀ (b : List (String × List (String × List BibEntry))) (y c : String) (e : BibEntry),
      c ∈ CATEGORY_ORDER → goodBuckets b → goodBuckets (pushYear b y c e) := by
  intro b
  induction b with
  | nil =>
    intro y c e hc _
    refine ⟨by simp [pushYear], ?_⟩
    intro yc hyc
    simp only [pushYear, List.mem_singleton] at hyc
    subst hyc
    refine ⟨by simp [pushCat], by simp [pushCat], ?_⟩
    intro cb hcb
    simp only [pushCat, List.mem_singleton] at hcb
    subst hcb
    exact ⟨hc, by simp⟩
  | cons p rest ih =>
    intro y c e hc hg
    obtain ⟨y0, cats⟩ := p
    obtain ⟨hnd, hall⟩ := hg
    simp only [List.map_cons, List.nodup_cons] at hnd
    have hghd := hall (y0, cats) (List.mem_cons_self _ _)
    simp only [pushYear]
    by_cases h : y0 = y
    · rw [if_pos h]
      refine ⟨by simpa using hnd, ?_⟩
      intro yc hyc
      rcases List.mem_cons.mp hyc with h1 | h1
      · subst h1
        exact ⟨pushCat_ne_nil _ _ _, pushCat_nodup _ _ _ hghd.2.1,
          pushCat_props _ _ _ hc hghd.2.2⟩
      · exact hall yc (List.mem_cons_of_mem _ h1)
    · rw [if_neg h]
      have hrest : goodBuckets rest :=
        ⟨hnd.2, fun yc hyc => hall yc (List.mem_cons_of_mem _ hyc)⟩
      obtain ⟨hnd2, hall2⟩ := ih y c e hc hrest
      refine ⟨?_, ?_⟩
      · simp only [List.map_cons, List.nodup_cons]
        refine ⟨?_, hnd2⟩
        intro hx
        rcases pushYear_keys rest y c e y0 hx with h1 | h1
        · exact h h1
        · exact hnd.1 h1
      · intro yc hyc
        rcases List.mem_cons.mp hyc with h1 | h1
        · subst h1
          exact hghd
        · exact hall2 yc h1

theorem goodBuckets_bucketsOf (es : List BibEntry) : goodBuckets (bucketsOf es) := by
  suffices h : ∀ acc, goodBuckets acc →
      goodBuckets (es.foldl (fun b e => pushYear b (getYear e) (categoryOf e.type) e) acc) by
    exact h [] ⟨List.nodup_nil, by simp⟩
  induction es with
  | nil => intro acc hacc; exact hacc
  | cons e es ih =>
    intro acc hacc
    rw [List.foldl_cons]
    exact ih _ (pushYear_good acc _ _ e (categoryOf_mem e.type) hacc)

theorem flatten_perm {α : Type} {l l' : List (List α)} (h : l.Perm l') :
    l.flatten.Perm l'.flatten := by
  induction h with
  | nil => exact List.Perm.refl _
  | cons x _ ih =>
    simp only [List.flatten_cons]
    exact List.Perm.append_left x ih
  | swap x y l =>
    simp only [List.flatten_cons]
    rw [← List.append_assoc, ← List.append_assoc]
    exact List.perm_append_comm.append_right _
  | trans _ _ ih1 ih2 => exact ih1.trans ih2

theorem catsFlat_perm {l l' : List (String × List BibEntry)} (h : l.Perm l') :
    (catsFlat l).Perm (catsFlat l') := flatten_perm (h.map Prod.snd)

/-- Claim C7: the grouped rendering payload contains every input entry in
exactly one (year, category) bucket — flattening all buckets gives back a
permutation of the input — and nothing empty is emitted: every year group
holds at least one category bucket and every category bucket holds at least
one entry. -/
theorem C7_grouping_complete (es : List BibEntry) :
    (groupsFlat (pubGroups es)).Perm es ∧
      ∀ yc ∈ pubGroups es, yc.2 ≠ [] ∧ ∀ cb ∈ yc.2, cb.2 ≠ [] := by
  obtain ⟨hndk, hally⟩ := goodBuckets_bucketsOf es
  constructor
  · have hmain : (groupsFlat (pubGroups es)).Perm (groupsFlat (bucketsOf es)) := by
      unfold pubGroups groupsFlat
      dsimp only
      rw [List.map_map]
      refine (flatten_map_perm_of_mem _ _
        (fun y => catsFlat ((alookup (bucketsOf es) y).getD [])) ?_).trans ?_
      · intro y hy
        have hyk : y ∈ (bucketsOf es).map Prod.fst :=
          (List.perm_insertionSort _ _).mem_iff.mp hy
        obtain ⟨p, hp, hpy⟩ := List.mem_map.mp hyk
        have halk : alookup (bucketsOf es) y = some p.2 := by
          apply alookup_of_mem_nodup hndk
          rw [← hpy]
          exact hp
        dsimp only [Function.comp]
        simp only [halk, Option.getD_some]
        have hprops := hally p hp
        refine (catsFlat_perm (filterMap_alookup_perm CATEGORY_ORDER p.2 (by decide)
          hprops.2.1 hprops.2.2)).trans ?_
        unfold catsFlat
        rw [List.map_map]
        exact flatten_map_perm_of_mem p.2 _ (fun q => q.2)
          (fun q _ => List.perm_insertionSort _ _)
      · refine (flatten_perm ((List.perm_insertionSort yearKeyLE _).map _)).trans ?_
        rw [List.map_map]
        apply flatten_map_perm_of_mem
        intro p hp
        have halk : alookup (bucketsOf es) p.1 = some p.2 :=
          alookup_of_mem_nodup hndk hp
        simp only [Function.comp_apply, halk, Option.getD_some]
        exact List.Perm.refl _
    exact hmain.trans (groupsFlat_bucketsOf es)
  · intro yc hyc
    simp only [pubGroups] at hyc
    obtain ⟨y, hy, hyc_eq⟩ := List.mem_map.mp hyc
    have hyk : y ∈ (bucketsOf es).map Prod.fst :=
      (List.perm_insertionSort _ _).mem_iff.mp hy
    obtain ⟨p, hp, hpy⟩ := List.mem_map.mp hyk
    have halk : alookup (bucketsOf es) y = some p.2 := by
      apply alookup_of_mem_nodup hndk
      rw [← hpy]
      exact hp
    rw [halk] at hyc_eq
    simp only [Option.getD_some] at hyc_eq
    subst hyc_eq
    have hprops := hally p hp
    constructor
    · obtain ⟨cb0, hcb0⟩ := List.exists_mem_of_ne_nil _ hprops.1
      have hcbp := hprops.2.2 cb0 hcb0
      have halk2 : alookup p.2 cb0.1 = some cb0.2 :=
        alookup_of_mem_nodup hprops.2.1 hcb0
      apply List.ne_nil_of_mem (a := (cb0.1, List.insertionSort titleLE cb0.2))
      apply List.mem_filterMap.mpr
      refine ⟨cb0.1, hcbp.1, ?_⟩
      simp only [halk2]
      rw [if_neg (by simpa using hcbp.2)]
    · intro cb hcb
      obtain ⟨c, _, hfc⟩ := List.mem_filterMap.mp hcb
      cases hlk2 : alookup p.2 c with
      | none => simp [hlk2] at hfc
      | some b =>
        rw [hlk2] at hfc
        dsimp only at hfc
        by_cases hb0 : b.length = 0
        · rw [if_pos hb0] at hfc
          cases hfc
        · rw [if_neg hb0] at hfc
          injection hfc with hcb_eq
          have hlen := (List.perm_insertionSort titleLE b).length_eq
          intro hnil
          rw [← hcb_eq] at hnil
          dsimp only at hnil
          apply hb0
          rw [← hlen, hnil]
          rfl

theorem C7_witness :
    (("2020", [("Publications", [(⟨"article", "k", [("year", "2020")]⟩ : BibEntry)])]) ∈
        pubGroups [⟨"article", "k", [("year", "2020")]⟩]) ∧
      ([("Publications", [(⟨"article", "k", [("year", "2020")]⟩ : BibEntry)])] ≠ []) :=
  ⟨by decide,
    ((C7_grouping_complete [⟨"article", "k", [("year", "2020")]⟩]).2
        ("2020", [("Publications", [⟨"article", "k", [("year", "2020")]⟩])])
        (by decide)).1⟩

/-! C1: character-class facts and scanning over serialized text. -/

theorem isWs_cases {c : Char} (h : isWs c = true) :
    c = ' ' ∨ c = '\t' ∨ c = '\r' ∨ c = '\n' := by
  simp only [isWs, Char.isWhitespace, Bool.or_eq_true, decide_eq_true_eq] at h
  tauto

theorem nameChar_class {c : Char} (h : isNameChar c = true) :
    isCommaWs c = false ∧ isWs c = false ∧ c ≠ '}' ∧ c ≠ '=' := by
  have hws : isWs c = false := by
    by_contra hw
    have hw2 : isWs c = true := by simpa using hw
    rcases isWs_cases hw2 with h1 | h1 | h1 | h1 <;>
      (subst h1; revert h; decide)
  have hcomma : c ≠ ',' := by
    intro h1
    subst h1
    revert h
    decide
  refine ⟨?_, hws, ?_, ?_⟩
  · simp [isCommaWs, hws, hcomma]
  · intro h1
    subst h1
    revert h
    decide
  · intro h1
    subst h1
    revert h
    decide

theorem lowerAZ_class {c : Char} (h : isLowerAZ c = true) :
    Char.isAlpha c = true ∧ isWs c = false := by
  constructor
  · simp only [isLowerAZ, Bool.and_eq_true, decide_eq_true_eq] at h
    have h1 : ('a' : Char).val ≤ c.val := h.1
    have h2 : c.val ≤ ('z' : Char).val := h.2
    simp only [Char.isAlpha, Char.isLower, Char.isUpper, Bool.or_eq_true, Bool.and_eq_true,
      decide_eq_true_eq]
    exact Or.inr ⟨h1, h2⟩
  · by_contra hw
    have hw2 : isWs c = true := by simpa using hw
    rcases isWs_cases hw2 with h1 | h1 | h1 | h1 <;>
      (subst h1; revert h; decide)

theorem takeWhile_prefix_stop {q : Char → Bool} :
    ∀ (xs : List Char) (y : Char) (ys : List Char),
      (∀ c ∈ xs, q c = true) → q y = false →
      (xs ++ y :: ys).takeWhile q = xs ∧ (xs ++ y :: ys).dropWhile q = y :: ys := by
  intro xs
  induction xs with
  | nil =>
    intro y ys _ hy
    simp [List.takeWhile_cons, List.dropWhile_cons, hy]
  | cons x xs ih =>
    intro y ys hall hy
    have hx : q x = true := hall x (List.mem_cons_self _ _)
    have hrec := ih y ys (fun c hc => hall c (List.mem_cons_of_mem _ hc)) hy
    simp only [List.cons_append, List.takeWhile_cons, List.dropWhile_cons, hx, if_true]
    simp [hrec.1, hrec.2]

theorem dropWhile_all_pre {q : Char → Bool} :
    ∀ (xs ys : List Char), (∀ c ∈ xs, q c = true) →
      (xs ++ ys).dropWhile q = ys.dropWhile q := by
  intro xs
  induction xs with
  | nil => intro ys _; rfl
  | cons x xs ih =>
    intro ys hall
    have hx : q x = true := hall x (List.mem_cons_self _ _)
    simp only [List.cons_append, List.dropWhile_cons, hx, if_true]
    exact ih ys (fun c hc => hall c (List.mem_cons_of_mem _ hc))

theorem dropWhile_head_stop {q : Char → Bool} {x : Char} (xs : List Char)
    (h : q x = false) : (x :: xs).dropWhile q = x :: xs := by
  simp [List.dropWhile_cons, h]

theorem trimmed_head_not_ws :
    ∀ {cs : List Char}, trimChars cs = cs → ∀ {c : Char}, cs.head? = some c →
      isWs c = false := by
  intro cs htrim c hc
  cases cs with
  | nil => cases hc
  | cons c0 rest =>
    have hcc : c0 = c := by simpa using hc
    subst hcc
    by_contra hw
    have hw2 : isWs c0 = true := by simpa using hw
    have hlen : (trimChars (c0 :: rest)).length < (c0 :: rest).length := by
      unfold trimChars
      rw [List.dropWhile_cons, if_pos hw2]
      have h1 : (rest.dropWhile isWs).length ≤ rest.length :=
        (List.dropWhile_sublist _).length_le
      have h2 : ((rest.dropWhile isWs).reverse.dropWhile isWs).length ≤
          (rest.dropWhile isWs).reverse.length := (List.dropWhile_sublist _).length_le
      simp only [List.length_reverse] at *
      simp only [List.length_cons]
      omega
    rw [htrim] at hlen
    exact absurd hlen (lt_irrefl _)

theorem trimChars_ends {a b : Char} (xs : List Char)
    (ha : isWs a = false) (hb : isWs b = false) :
    trimChars (a :: (xs ++ [b])) = a :: (xs ++ [b]) := by
  unfold trimChars
  rw [List.dropWhile_cons, if_neg (by simp [ha])]
  rw [show (a :: (xs ++ [b])).reverse = b :: (xs.reverse ++ [a]) by simp]
  rw [List.dropWhile_cons, if_neg (by simp [hb])]
  simp

theorem stripBraceGo_no_open :
    ∀ (n : Nat) (cs : List Char), cs.head? ≠ some '{' → stripBraceGo n cs = cs := by
  intro n cs h
  cases n with
  | zero => rfl
  | succ n =>
    simp only [stripBraceGo]
    rw [if_neg]
    intro hc
    exact h (by simpa using (Bool.and_elim_left hc))

theorem noBrace_head {v : List Char} (h : noBrace v = true) : v.head? ≠ some '{' := by
  cases v with
  | nil => simp
  | cons c rest =>
    intro hc
    have hc2 : c = '\x7b' := by simpa using hc
    subst hc2
    simp only [noBrace, List.all_cons, Bool.and_eq_true] at h
    exact absurd h.1 (by decide)

theorem removeBraces_eq_self {v : List Char} (h : noBrace v = true) :
    removeBraces v = v :=
  List.filter_eq_self.mpr (fun c hc => (List.all_eq_true.mp h) c hc)

theorem replacePair_escFree :
    ∀ (v : List Char), escFree v = true →
      replacePair '\\' '&' '&' v = v ∧ replacePair '\\' ',' ',' v = v ∧
        replacePair '\\' '%' '%' v = v := by
  intro v
  induction v with
  | nil => intro _; exact ⟨rfl, rfl, rfl⟩
  | cons a tail ih =>
    intro h
    cases tail with
    | nil => exact ⟨rfl, rfl, rfl⟩
    | cons b cs =>
      simp only [escFree, Bool.and_eq_true, Bool.not_eq_true'] at h
      have hno := h.1
      have hrec := ih h.2
      have hsplit : decide (a = '\\') = false ∨
          (decide (b = '&') = false ∧ decide (b = ',') = false ∧
            decide (b = '%') = false) := by
        rcases Bool.and_eq_false_iff.mp hno with h1 | h1
        · exact Or.inl h1
        · rcases Bool.or_eq_false_iff.mp h1 with ⟨h2, h3⟩
          rcases Bool.or_eq_false_iff.mp h2 with ⟨h4, h5⟩
          exact Or.inr ⟨h4, h5, h3⟩
      refine ⟨?_, ?_, ?_⟩
      · simp only [replacePair]
        rw [if_neg (by
          rcases hsplit with h1 | h1
          · simp [h1]
          · simp [h1.1])]
        rw [hrec.1]
      · simp only [replacePair]
        rw [if_neg (by
          rcases hsplit with h1 | h1
          · simp [h1]
          · simp [h1.2.1])]
        rw [hrec.2.1]
      · simp only [replacePair]
        rw [if_neg (by
          rcases hsplit with h1 | h1
          · simp [h1]
          · simp [h1.2.2])]
        rw [hrec.2.2]

theorem map_id_of_mem {α : Type} :
    ∀ (l : List α) (f : α → α), (∀ a ∈ l, f a = a) → l.map f = l := by
  intro l f
  induction l with
  | nil => intro _; rfl
  | cons x xs ih =>
    intro h
    rw [List.map_cons, h x (List.mem_cons_self _ _),
      ih (fun a ha => h a (List.mem_cons_of_mem _ ha))]

theorem bibToText_braced {v : String} (h : wfValue v) :
    bibToText ('{' :: (v.toList ++ ['}'])).asString = v := by
  obtain ⟨hne, hnb, hesc, hcoll, htrim⟩ := h
  unfold bibToText
  rw [toList_asString]
  unfold bibToTextL
  dsimp only
  rw [trimChars_ends v.toList (by decide) (by decide)]
  have hstrip : stripBraceGo ('{' :: (v.toList ++ ['}'])).length
      ('{' :: (v.toList ++ ['}'])) = v.toList := by
    rw [show ('{' :: (v.toList ++ ['}'])).length = (v.toList.length + 1) + 1 by simp]
    simp only [stripBraceGo]
    rw [if_pos (by
      simp only [List.head?_cons, Bool.and_eq_true, decide_eq_true_eq]
      refine ⟨trivial, ?_⟩
      rw [show ('{' :: (v.toList ++ ['}'])) = ('{' :: v.toList) ++ ['}'] by simp]
      exact List.getLast?_concat _)]
    rw [show (('{' :: (v.toList ++ ['}'])).drop 1).dropLast = v.toList by
      simp [List.dropLast_concat]]
    rw [htrim]
    rw [if_neg (fun hc => noBrace_head hnb (of_decide_eq_true (Bool.and_elim_left hc)))]
  rw [hstrip]
  rw [removeBraces_eq_self hnb]
  rw [(replacePair_escFree _ hesc).1, (replacePair_escFree _ hesc).2.1,
    (replacePair_escFree _ hesc).2.2]
  rw [show collapseWs v.toList = v.toList from hcoll, htrim]
  exact asString_toList v

theorem jsTrim_braced (v : List Char) :
    jsTrim ('{' :: (v ++ ['}'])).asString = ('{' :: (v ++ ['}'])).asString := by
  unfold jsTrim
  rw [toList_asString, trimChars_ends v (by decide) (by decide)]

theorem braceScanGo_closed :
    ∀ (v rest : List Char), noBrace v = true →
      braceScanGo 1 (v ++ '}' :: rest) = (v ++ ['}'], rest) := by
  intro v
  induction v with
  | nil =>
    intro rest _
    simp [braceScanGo]
  | cons c v ih =>
    intro rest hnb
    simp only [noBrace, List.all_cons, Bool.and_eq_true] at hnb
    have hc1 : c ≠ '{' := of_decide_eq_true hnb.1.1
    have hc2 : c ≠ '}' := of_decide_eq_true hnb.1.2
    simp only [List.cons_append, braceScanGo]
    rw [if_neg hc1, if_neg hc2]
    simp only [List.append_eq]
    rw [ih rest hnb.2]

theorem readBibValue_braced (v rest : List Char) (hnb : noBrace v = true) :
    readBibValue ('{' :: (v ++ '}' :: rest)) = (('{' :: (v ++ ['}'])).asString, rest) := by
  simp only [readBibValue, braceScanGo]
  rw [if_pos trivial]
  rw [show (0 : Int) + 1 = 1 by decide]
  rw [braceScanGo_closed v rest hnb]

theorem parseFieldsGo_serialized :
    ∀ (fields : List (String × String)) (pre : List Char) (fs : List (String × String))
      (rest : List Char) (fuel : Nat),
      (∀ c ∈ pre, isCommaWs c = true) →
      (∀ p ∈ fields, wfName p.1 ∧ wfValue p.2) →
      (pre ++ ((fields.map fieldLineL).flatten ++ '\n' :: '}' :: rest)).length < fuel →
      parseFieldsGo fuel fs (pre ++ ((fields.map fieldLineL).flatten ++ '\n' :: '}' :: rest)) =
        (fields.foldl
          (fun acc p => setField acc p.1 (('{' :: (p.2.toList ++ ['}'])).asString)) fs,
          rest) := by
  intro fields
  induction fields with
  | nil =>
    intro pre fs rest fuel hpre _ hfuel
    obtain ⟨f, rfl⟩ : ∃ f, fuel = f + 1 := ⟨fuel - 1, by omega⟩
    simp only [List.map_nil, List.flatten_nil, List.nil_append, parseFieldsGo]
    rw [dropWhile_all_pre pre ('\n' :: '}' :: rest) hpre]
    rw [List.dropWhile_cons, if_pos (by decide)]
    rw [dropWhile_head_stop rest (by decide)]
    rfl
  | cons p fields ih =>
    intro pre fs rest fuel hpre hwf hfuel
    obtain ⟨f, rfl⟩ : ∃ f, fuel = f + 1 := ⟨fuel - 1, by omega⟩
    obtain ⟨hwn, hwv⟩ := hwf p (List.mem_cons_self _ _)
    obtain ⟨hn_ne, hn_chars, _⟩ := hwn
    have hnbV : noBrace p.2.toList = true := hwv.2.1
    obtain ⟨c0, nrest, hN⟩ : ∃ c0 nrest, p.1.toList = c0 :: nrest := by
      cases hp : p.1.toList with
      | nil =>
        exfalso
        apply hn_ne
        have := congrArg List.asString hp
        rwa [asString_toList] at this
      | cons a b => exact ⟨a, b, rfl⟩
    have hc0 : isNameChar c0 = true :=
      (hn_chars c0 (by rw [hN]; exact List.mem_cons_self _ _)).1
    have hinput : ((p :: fields).map fieldLineL).flatten ++ '\n' :: '}' :: rest =
        '\n' :: ' ' :: ' ' :: (c0 :: (nrest ++ (' ' :: '=' :: ' ' :: '{' ::
          (p.2.toList ++ '}' :: ',' ::
            ((fields.map fieldLineL).flatten ++ '\n' :: '}' :: rest))))) := by
      simp only [List.map_cons, List.flatten_cons, fieldLineL, hN, List.cons_append,
        List.append_assoc, List.nil_append]
    rw [hinput]
    rw [hinput] at hfuel
    simp only [parseFieldsGo]
    rw [dropWhile_all_pre pre _ hpre]
    rw [List.dropWhile_cons, if_pos (by decide)]
    rw [List.dropWhile_cons, if_pos (by decide)]
    rw [List.dropWhile_cons, if_pos (by decide)]
    rw [dropWhile_head_stop _ (nameChar_class hc0).1]
    split
    · rename_i heq
      exact absurd heq (by simp)
    · rename_i heq
      exfalso
      injection heq with h1 h2
      exact (nameChar_class hc0).2.2.1 h1
    · have hNall : ∀ c ∈ c0 :: nrest, isNameChar c = true := by
        intro c hc
        exact (hn_chars c (by rw [hN]; exact hc)).1
      rw [show c0 :: (nrest ++ (' ' :: '=' :: ' ' :: '{' :: (p.2.toList ++ '}' :: ',' :: ((List.map fieldLineL fields).flatten ++ '\n' :: '}' :: rest)))) =
        (c0 :: nrest) ++ (' ' :: '=' :: ' ' :: '{' :: (p.2.toList ++ '}' :: ',' :: ((List.map fieldLineL fields).flatten ++ '\n' :: '}' :: rest))) from rfl]
      have htk := takeWhile_prefix_stop (c0 :: nrest) ' ' ('=' :: ' ' :: '{' :: (p.2.toList ++ '}' :: ',' :: ((List.map fieldLineL fields).flatten ++ '\n' :: '}' :: rest))) hNall (by decide)
      rw [htk.1, htk.2]
      rw [List.dropWhile_cons, if_pos (by decide)]
      rw [dropWhile_head_stop _ (by decide)]
      split
      · rename_i cs3 heq
        injection heq with h1 h2
        subst h2
        rw [List.dropWhile_cons, if_pos (by decide)]
        rw [dropWhile_head_stop _ (by decide)]
        rw [readBibValue_braced p.2.toList (',' :: ((List.map fieldLineL fields).flatten ++ '\n' :: '}' :: rest)) hnbV]
        dsimp only
        rw [jsTrim_braced p.2.toList]
        rw [map_id_of_mem (c0 :: nrest) Char.toLower
          (fun c hc => (hn_chars c (by rw [hN]; exact hc)).2)]
        rw [show (c0 :: nrest) = p.1.toList from hN.symm]
        rw [asString_toList]
        rw [show (',' :: ((List.map fieldLineL fields).flatten ++ '\n' :: '}' :: rest)) = [','] ++ ((List.map fieldLineL fields).flatten ++ '\n' :: '}' :: rest) from rfl]
        rw [ih [','] _ rest f
          (by intro c hc; simp only [List.mem_singleton] at hc; subst hc; decide)
          (fun q hq => hwf q (List.mem_cons_of_mem _ hq))
          (by
            have h2 : ([','] ++
                ((List.map fieldLineL fields).flatten ++ '\n' :: '}' :: rest)).length =
                (List.map fieldLineL fields).flatten.length + rest.length + 3 := by
              simp
              omega
            rw [h2]
            simp only [List.length_append, List.length_cons, List.length_nil] at hfuel
            omega)]
        rw [List.foldl_cons]
      · rename_i hx
        exact absurd rfl (fun h => hx _ h)

theorem lowerAZ_toLower {c : Char} (h : isLowerAZ c = true) : c.toLower = c := by
  simp only [isLowerAZ, Bool.and_eq_true, decide_eq_true_eq] at h
  have h1 : ('a' : Char) ≤ c := h.1
  rw [Char.le_def] at h1
  rw [UInt32.le_def] at h1
  have h97 : 97 ≤ c.toNat := h1
  have h2 : ¬(c.toNat ≥ 65 ∧ c.toNat ≤ 90) := by omega
  simp only [Char.toLower, if_neg h2]

theorem dropWhile_none_pre {q : Char → Bool} :
    ∀ (xs : List Char) (y : Char) (ys : List Char),
      (∀ c ∈ xs, q c = false) → q y = false →
      (xs ++ y :: ys).dropWhile q = xs ++ y :: ys := by
  intro xs
  induction xs with
  | nil => intro y ys _ hy; exact dropWhile_head_stop ys hy
  | cons x xs ih =>
    intro y ys hall hy
    rw [show (x :: xs) ++ y :: ys = x :: (xs ++ y :: ys) from rfl]
    exact dropWhile_head_stop _ (hall x (List.mem_cons_self _ _))

theorem parseRecord_serialized (e : BibEntry) (SUFFIX : List Char) (hwf : wfEntry e) :
    parseRecord (e.type.toList ++ '{' :: (e.key.toList ++ ',' ::
        (((sortFieldsByName e.fields).map fieldLineL).flatten ++ '\n' :: '}' :: SUFFIX))) =
      (some ⟨e.type, e.key,
        (sortFieldsByName e.fields).foldl
          (fun acc p => setField acc p.1 (('{' :: (p.2.toList ++ ['}'])).asString)) []⟩,
        SUFFIX) := by
  obtain ⟨hty, hkeytrim, hkeycomma, hsorted, hfieldswf⟩ := hwf
  unfold parseRecord
  have htyall : ∀ c ∈ e.type.toList, Char.isAlpha c = true :=
    fun c hc => (lowerAZ_class (hty c hc)).1
  have h1 : List.dropWhile isWs (e.type.toList ++ '{' :: (e.key.toList ++ ',' ::
      (((sortFieldsByName e.fields).map fieldLineL).flatten ++ '\n' :: '}' :: SUFFIX))) =
      e.type.toList ++ '{' :: (e.key.toList ++ ',' ::
      (((sortFieldsByName e.fields).map fieldLineL).flatten ++ '\n' :: '}' :: SUFFIX)) :=
    dropWhile_none_pre _ _ _ (fun c hc => (lowerAZ_class (hty c hc)).2) (by decide)
  rw [h1]
  dsimp only
  have htk := takeWhile_prefix_stop e.type.toList '{' (e.key.toList ++ ',' ::
    (((sortFieldsByName e.fields).map fieldLineL).flatten ++ '\n' :: '}' :: SUFFIX))
    htyall (by decide)
  rw [htk.1, htk.2]
  rw [map_id_of_mem e.type.toList Char.toLower (fun c hc => lowerAZ_toLower (hty c hc))]
  rw [asString_toList]
  rw [dropWhile_head_stop _ (by decide : isWs '{' = false)]
  split
  · rename_i cs3 heq
    injection heq with h1 h2
    subst h2
    have hK : List.dropWhile isWs (e.key.toList ++ ',' ::
        (((sortFieldsByName e.fields).map fieldLineL).flatten ++ '\n' :: '}' :: SUFFIX)) =
        e.key.toList ++ ',' ::
        (((sortFieldsByName e.fields).map fieldLineL).flatten ++ '\n' :: '}' :: SUFFIX) := by
      cases hk : e.key.toList with
      | nil =>
        simp only [List.nil_append]
        exact dropWhile_head_stop _ (by decide)
      | cons k0 kr =>
        have hk0 : isWs k0 = false := trimmed_head_not_ws hkeytrim (by rw [hk]; rfl)
        rw [show (k0 :: kr) ++ ',' ::
            (((sortFieldsByName e.fields).map fieldLineL).flatten ++ '\n' :: '}' :: SUFFIX) =
            k0 :: (kr ++ ',' ::
            (((sortFieldsByName e.fields).map fieldLineL).flatten ++ '\n' :: '}' :: SUFFIX))
          from rfl]
        exact dropWhile_head_stop _ hk0
    rw [hK]
    have htk2 := @takeWhile_prefix_stop (fun c => decide (c ≠ ',')) e.key.toList ','
      (((sortFieldsByName e.fields).map fieldLineL).flatten ++ '\n' :: '}' :: SUFFIX)
      (fun c hc => by
        simp only [decide_eq_true_eq]
        intro hcc
        exact hkeycomma (hcc ▸ hc)) (by decide)
    rw [htk2.1, htk2.2]
    rw [asString_toList]
    rw [show jsTrim e.key = e.key by unfold jsTrim; rw [hkeytrim, asString_toList]]
    split
    · rename_i cs6 heq2
      injection heq2 with h3 h4
      subst h4
      have hfields := parseFieldsGo_serialized (sortFieldsByName e.fields) [] [] SUFFIX
        ((((sortFieldsByName e.fields).map fieldLineL).flatten ++
          '\n' :: '}' :: SUFFIX).length + 1)
        (by intro c hc; cases hc)
        (fun q hq => hfieldswf q ((List.perm_insertionSort _ _).mem_iff.mp hq))
        (by simp)
      simp only [List.nil_append] at hfields
      rw [hfields]
    · rename_i hx
      exact absurd rfl (fun h => hx _ h)
  · rename_i hx
    exact absurd rfl (fun h => hx _ h)

theorem setField_not_mem :
    ∀ (acc : List (String × String)) (n v : String), n ∉ acc.map Prod.fst →
      setField acc n v = acc ++ [(n, v)] := by
  intro acc
  induction acc with
  | nil => intro n v _; rfl
  | cons q fs ih =>
    intro n v h
    obtain ⟨n0, v0⟩ := q
    simp only [List.map_cons, List.mem_cons] at h
    push_neg at h
    simp only [setField]
    rw [if_neg (fun he => h.1 he.symm), ih n v h.2]
    rfl

theorem foldl_setField_map (g : String × String → String) :
    ∀ (fields acc : List (String × String)),
      (fields.map Prod.fst).Nodup →
      (∀ n ∈ fields.map Prod.fst, n ∉ acc.map Prod.fst) →
      fields.foldl (fun acc p => setField acc p.1 (g p)) acc =
        acc ++ fields.map (fun p => (p.1, g p)) := by
  intro fields
  induction fields with
  | nil => intro acc _ _; simp
  | cons p fields ih =>
    intro acc hnodup hdisj
    simp only [List.map_cons, List.nodup_cons] at hnodup
    rw [List.foldl_cons]
    rw [setField_not_mem acc p.1 (g p) (hdisj p.1 (by simp))]
    rw [ih (acc ++ [(p.1, g p)]) hnodup.2 (by
      intro n hn
      simp only [List.map_append, List.mem_append, List.map_cons, List.map_nil,
        List.mem_singleton]
      push_neg
      refine ⟨hdisj n (by simp [hn]), ?_⟩
      intro he
      exact hnodup.1 (he ▸ hn))]
    simp

theorem foldl_clean_braced :
    ∀ (fields acc : List (String × String)),
      (∀ p ∈ fields, wfName p.1 ∧ wfValue p.2) →
      fields.foldl (fun acc p =>
        if p.1 ∈ DROP_FIELDS then acc
        else if bibToText (('{' :: (p.2.toList ++ ['}'])).asString) = "" then acc
        else setField acc p.1 (bibToText (('{' :: (p.2.toList ++ ['}'])).asString))) acc =
      fields.foldl (fun acc p => setField acc p.1 p.2) acc := by
  intro fields
  induction fields with
  | nil => intro acc _; rfl
  | cons p fields ih =>
    intro acc hwf
    obtain ⟨hn, hv⟩ := hwf p (List.mem_cons_self _ _)
    rw [List.foldl_cons, List.foldl_cons]
    rw [if_neg hn.2.2]
    rw [bibToText_braced hv]
    rw [if_neg hv.1]
    exact ih _ (fun q hq => hwf q (List.mem_cons_of_mem _ hq))

theorem cleanFields_braced (fs : List (String × String))
    (hwf : ∀ p ∈ fs, wfName p.1 ∧ wfValue p.2)
    (hnodup : (fs.map Prod.fst).Nodup) :
    cleanFields (fs.map (fun p => (p.1, ('{' :: (p.2.toList ++ ['}'])).asString))) = fs := by
  unfold cleanFields
  rw [List.foldl_map]
  dsimp only
  rw [foldl_clean_braced fs [] hwf]
  rw [foldl_setField_map Prod.snd fs [] hnodup (by intro n _; simp)]
  simp only [List.nil_append]
  exact map_id_of_mem fs _ (fun p _ => rfl)

theorem sortFieldsByName_sorted_eq {fs : List (String × String)}
    (h : fs.Pairwise (fun p q => strLT p.1 q.1)) : sortFieldsByName fs = fs := by
  unfold sortFieldsByName
  exact List.Sorted.insertionSort_eq (h.imp (fun hpq => le_of_lt hpq))

theorem clean_parsed (e : BibEntry) (h : wfEntry e) :
    cleanEntry ⟨e.type, e.key,
      (sortFieldsByName e.fields).foldl
        (fun acc p => setField acc p.1 (('{' :: (p.2.toList ++ ['}'])).asString)) []⟩ = e := by
  obtain ⟨hty, hkt, hkc, hsorted, hfwf⟩ := h
  rw [sortFieldsByName_sorted_eq hsorted]
  have hnodup : (e.fields.map Prod.fst).Nodup := by
    refine List.Pairwise.map _ ?_ hsorted
    intro a b hab heq
    refine absurd hab ?_
    rw [heq]
    unfold strLT
    exact lt_irrefl _
  have hmap := foldl_setField_map (fun p => ('{' :: (p.2.toList ++ ['}'])).asString)
    e.fields [] hnodup (by intro n _; simp)
  simp only [List.nil_append] at hmap
  unfold cleanEntry
  dsimp only
  rw [hmap]
  rw [cleanFields_braced e.fields hfwf hnodup]

theorem parseLoopGo_newline : ∀ (f : Nat), 0 < f → parseLoopGo f ['\n'] = [] := by
  intro f hf
  obtain ⟨f', rfl⟩ : ∃ f', f = f' + 1 := ⟨f - 1, by omega⟩
  simp [parseLoopGo, List.dropWhile]

theorem parseLoopGo_dropCongr :
    ∀ (f : Nat) (cs cs' : List Char),
      cs.dropWhile (fun c => decide (c ≠ '@')) = cs'.dropWhile (fun c => decide (c ≠ '@')) →
      parseLoopGo f cs = parseLoopGo f cs' := by
  intro f cs cs' h
  cases f with
  | zero => rfl
  | succ f =>
    simp only [parseLoopGo]
    rw [h]

theorem parseLoopGo_serialized :
    ∀ (es : List BibEntry) (fuel : Nat), (∀ e ∈ es, wfEntry e) →
      (sepChunksL es ++ ['\n']).length < fuel →
      parseLoopGo fuel (sepChunksL es ++ ['\n']) =
        es.map (fun e => ⟨e.type, e.key,
          (sortFieldsByName e.fields).foldl
            (fun acc p => setField acc p.1 (('{' :: (p.2.toList ++ ['}'])).asString)) []⟩) := by
  intro es
  induction es with
  | nil =>
    intro fuel _ hfuel
    simp only [sepChunksL, List.nil_append, List.map_nil]
    exact parseLoopGo_newline fuel (by omega)
  | cons e rest ih =>
    intro fuel hwf hfuel
    obtain ⟨f, rfl⟩ : ∃ f, fuel = f + 1 := ⟨fuel - 1, by omega⟩
    have hchunk : ∀ SUFF : List Char, entryChunkL e ++ SUFF =
        '@' :: (e.type.toList ++ '{' :: (e.key.toList ++ ',' ::
          (((sortFieldsByName e.fields).map fieldLineL).flatten ++ '\n' :: '}' :: SUFF))) := by
      intro SUFF
      simp only [entryChunkL, List.cons_append, List.append_assoc, List.nil_append]
    have hwfe := hwf e (List.mem_cons_self _ _)
    cases rest with
    | nil =>
      rw [show sepChunksL [e] = entryChunkL e from rfl]
      rw [hchunk ['\n']]
      simp only [parseLoopGo]
      rw [dropWhile_head_stop _ (by decide)]
      split
      · rename_i heq
        exact absurd heq (by simp)
      · rename_i c r heq
        injection heq with h1 h2
        subst h2
        rw [parseRecord_serialized e ['\n'] hwfe]
        dsimp only
        have hf1 : 0 < f := by
          have hch : 1 ≤ (sepChunksL [e]).length := by
            rw [show sepChunksL [e] = entryChunkL e from rfl]
            simp [entryChunkL]
          simp only [List.length_append, List.length_singleton] at hfuel
          omega
        rw [parseLoopGo_newline f hf1]
        simp
    | cons r0 rs =>
      rw [show sepChunksL (e :: r0 :: rs) =
        entryChunkL e ++ '\n' :: '\n' :: sepChunksL (r0 :: rs) from rfl]
      rw [show (entryChunkL e ++ '\n' :: '\n' :: sepChunksL (r0 :: rs)) ++ ['\n'] =
        entryChunkL e ++ ('\n' :: '\n' :: (sepChunksL (r0 :: rs) ++ ['\n'])) by simp]
      rw [hchunk ('\n' :: '\n' :: (sepChunksL (r0 :: rs) ++ ['\n']))]
      simp only [parseLoopGo]
      rw [dropWhile_head_stop _ (by decide)]
      split
      · rename_i heq
        exact absurd heq (by simp)
      · rename_i c r heq
        injection heq with h1 h2
        subst h2
        rw [parseRecord_serialized e ('\n' :: '\n' :: (sepChunksL (r0 :: rs) ++ ['\n'])) hwfe]
        dsimp only
        rw [parseLoopGo_dropCongr f ('\n' :: '\n' :: (sepChunksL (r0 :: rs) ++ ['\n']))
          (sepChunksL (r0 :: rs) ++ ['\n']) (by
            rw [List.dropWhile_cons, if_pos (by decide), List.dropWhile_cons,
              if_pos (by decide)])]
        have hflen : (sepChunksL (r0 :: rs) ++ ['\n']).length < f := by
          have hch : 1 ≤ (entryChunkL e).length := by simp [entryChunkL]
          have hlen : (sepChunksL (e :: r0 :: rs) ++ ['\n']).length =
              (entryChunkL e).length + 2 + (sepChunksL (r0 :: rs)).length + 1 := by
            rw [show sepChunksL (e :: r0 :: rs) =
              entryChunkL e ++ '\n' :: '\n' :: sepChunksL (r0 :: rs) from rfl]
            simp
            omega
          rw [hlen] at hfuel
          simp only [List.length_append, List.length_singleton]
          omega
        rw [ih f (fun x hx => hwf x (List.mem_cons_of_mem _ hx)) hflen]
        simp

/-- Claim C1 counterexample: the entry satisfies every condition the claim
states — lowercase type, trimmed comma-free key, a single non-denylisted
field whose value `\&` is single-line, brace-free, whitespace-collapsed,
trimmed and non-empty — yet the round trip does not reproduce it: the
serializer writes the value verbatim and the re-normalization expands the
escape `\&` to `&`. -/
theorem C1_counterexample :
    ("title" : String) ≠ "" ∧
      (∀ c ∈ ("title" : String).toList, isNameChar c = true ∧ Char.toLower c = c) ∧
      ("title" : String) ∉ DROP_FIELDS ∧
      ("\\&" : String) ≠ "" ∧ noBrace ("\\&" : String).toList = true ∧
      '\n' ∉ ("\\&" : String).toList ∧
      collapseWs ("\\&" : String).toList = ("\\&" : String).toList ∧
      trimChars ("\\&" : String).toList = ("\\&" : String).toList ∧
      (∀ c ∈ ("article" : String).toList, isLowerAZ c = true) ∧
      trimChars ("k" : String).toList = ("k" : String).toList ∧
      ',' ∉ ("k" : String).toList ∧
      cleanEntries (parseBib (writeCleanBib [⟨"article", "k", [("title", "\\&")]⟩])) ≠
        [⟨"article", "k", [("title", "\\&")]⟩] := by
  decide

/-- Claim C1 (amended): for entries in normal form whose field values are in
addition escape-free (none of the two-character sequences `\&`, `\,`, `\%`
that re-normalization expands), re-parsing and re-normalizing the
serializer's output reproduces the entry set exactly, up to the entry
reordering the normalizer itself performs (the output is a permutation of
the input set, and equal to it when the input is sorted). -/
theorem C1_roundtrip_amended (es : List BibEntry) (hwf : ∀ e ∈ es, wfEntry e) :
    (cleanEntries (parseBib (writeCleanBib es))).Perm es ∧
      (List.Sorted entryLE es → cleanEntries (parseBib (writeCleanBib es)) = es) := by
  have hparse : parseBib (writeCleanBib es) =
      es.map (fun e => ⟨e.type, e.key,
        (sortFieldsByName e.fields).foldl
          (fun acc p => setField acc p.1 (('{' :: (p.2.toList ++ ['}'])).asString)) []⟩) := by
    unfold parseBib writeCleanBib
    rw [toList_asString]
    exact parseLoopGo_serialized es _ hwf (Nat.lt_succ_self _)
  have hkey : cleanEntries (parseBib (writeCleanBib es)) =
      List.insertionSort entryLE es := by
    rw [hparse]
    unfold cleanEntries
    rw [List.map_map]
    simp only [Function.comp_def]
    rw [map_id_of_mem es
      (fun e => cleanEntry ⟨e.type, e.key,
        (sortFieldsByName e.fields).foldl
          (fun acc p => setField acc p.1 (('{' :: (p.2.toList ++ ['}'])).asString)) []⟩)
      (fun e he => clean_parsed e (hwf e he))]
  constructor
  · rw [hkey]
    exact List.perm_insertionSort _ _
  · intro hs
    rw [hkey]
    exact hs.insertionSort_eq

theorem C1_witness :
    (∀ e ∈ [(⟨"article", "k", [("title", "T")]⟩ : BibEntry)], wfEntry e) ∧
      List.Sorted entryLE [(⟨"article", "k", [("title", "T")]⟩ : BibEntry)] ∧
      cleanEntries (parseBib (writeCleanBib [⟨"article", "k", [("title", "T")]⟩])) =
        [⟨"article", "k", [("title", "T")]⟩] :=
  ⟨by decide, List.sorted_singleton _,
    (C1_roundtrip_amended _ (by decide)).2 (List.sorted_singleton _)⟩
